import Mathlib

/-!
# Reference manager (`main.go`): shallow embedding and verification

The Go program keeps two process-wide maps, `projects` and `references`, and
drives them from a tree of menu screens that each read one line of input.

Modelling decisions (all taken from `main.go`):

* A Go `map[string]V` is a `GoMap V`: a list of entries with pairwise distinct
  keys.  Go leaves the iteration order of a map unspecified; the order of the
  entry list stands for the order the runtime happens to choose, and the
  theorems about produced text or rows quantify over every visiting order.
* `Project.references` is a Go map, hence a reference type whose zero value is
  the `nil` map.  No two keys of `projects` ever share one underlying map
  (every write to `projects[k]` stores either a fresh map, or the map already
  stored under `k`, or moves a map to a new key and deletes the old key), so a
  project owns its map by value here; the `nil` map is `none`.
* The records stored inside a project's map are copies of `Reference` values.
  No function of the program reads the `authors` of such a copy, so the
  sharing of slice backing arrays between a copy and the global record is not
  observable and author lists are plain lists.
* `getInput` yields one line of standard input per call; the screen-erasing
  escape sequences written by `clearLines` are not part of the transcript.
* `int` has 64 bits.  The growth of the Go call stack with every screen call
  is not modelled.
* The screens call each other recursively.  Every such call is the last action
  of its caller, except the call `editProject(projectId)` in the colliding
  branch of "edit id"; the control state therefore is the current prompt
  plus the stack of those pending `editProject` frames.
-/

namespace RefManager

/-! ## Go maps with string keys -/

/-- A Go `map[string]V`: finitely many entries with pairwise distinct keys. -/
structure GoMap (V : Type) where
  entries : List (String × V)
  nodup : (entries.map Prod.fst).Nodup

namespace GoMap

variable {V : Type}

/-- The map created by `make(map[string]V)`. -/
def empty : GoMap V := ⟨[], List.nodup_nil⟩

/-- The keys of the map, in visiting order. -/
def keys (m : GoMap V) : List String := m.entries.map Prod.fst

/-- The value of the first entry with key `k`. -/
def find : List (String × V) → String → Option V
  | [], _ => none
  | e :: l, k => if e.1 = k then some e.2 else find l k

/-- The comma-ok lookup `v, ok := m[k]`. -/
def get (m : GoMap V) (k : String) : Option V := find m.entries k

/-- The test `_, ok := m[k]`. -/
def contains (m : GoMap V) (k : String) : Bool := (m.get k).isSome

/-- The statement `delete(m, k)`. -/
def del (m : GoMap V) (k : String) : GoMap V :=
  ⟨m.entries.filter (fun e => !decide (e.1 = k)),
    ((List.filter_sublist m.entries).map Prod.fst).nodup m.nodup⟩

/-- The assignment `m[k] = v`. -/
def set (m : GoMap V) (k : String) (v : V) : GoMap V :=
  ⟨(k, v) :: m.entries.filter (fun e => !decide (e.1 = k)), by
    simp only [List.map_cons, List.nodup_cons]
    refine ⟨?_, ((List.filter_sublist m.entries).map Prod.fst).nodup m.nodup⟩
    intro h
    obtain ⟨e, he, rfl⟩ := List.mem_map.1 h
    simpa using (List.mem_filter.1 he).2⟩

/-- Apply `f` to the value stored under `k` (if any), in place. -/
def update (m : GoMap V) (k : String) (f : V → V) : GoMap V :=
  ⟨m.entries.map (fun e => if e.1 = k then (e.1, f e.2) else e), by
    have h : (m.entries.map (fun e => if e.1 = k then (e.1, f e.2) else e)).map Prod.fst
        = m.entries.map Prod.fst := by
      rw [List.map_map]
      apply List.map_congr_left
      intro e _
      by_cases hk : e.1 = k <;> simp [hk]
    rw [h]; exact m.nodup⟩

/-- Apply `f` to every stored value, keys untouched. -/
def mapVals (f : V → V) (m : GoMap V) : GoMap V :=
  ⟨m.entries.map (fun e => (e.1, f e.2)), by
    have h : (m.entries.map (fun e => (e.1, f e.2))).map Prod.fst = m.entries.map Prod.fst := by
      simp [List.map_map, Function.comp_def]
    rw [h]; exact m.nodup⟩

end GoMap

/-! ## Go standard-library functions used by the program -/

/-- Go's `unicode.IsSpace`: the Latin-1 spaces and the code points of
category Z and property Pattern_White_Space. -/
def isSpace (c : Char) : Bool :=
  let n := c.toNat
  (9 ≤ n && n ≤ 13) || n = 32 || n = 0x85 || n = 0xA0 || n = 0x1680 ||
  (0x2000 ≤ n && n ≤ 0x200A) || n = 0x2028 || n = 0x2029 || n = 0x202F ||
  n = 0x205F || n = 0x3000

/-- Go's `strings.TrimSpace`: all leading and trailing white space removed. -/
def TrimSpace (s : String) : String :=
  String.mk ((((s.data.dropWhile isSpace).reverse).dropWhile isSpace).reverse)

/-- Go's `strings.Replace(s, " ", "", -1)`: every space character removed. -/
def removeSpaces (s : String) : String :=
  String.mk (s.data.filter (fun c => c ≠ ' '))

/-- Go's `strings.Join`. -/
def Join (elems : List String) (sep : String) : String :=
  sep.intercalate elems

/-- Value of a string of decimal digits. -/
def digitsValue (ds : List Char) : Nat :=
  ds.foldl (fun acc c => 10 * acc + (c.toNat - 48)) 0

/-- Go's `strconv.Atoi` on a 64-bit platform: an optional sign followed by
one or more decimal digits, the value within the range of `int`; `none` is a
non-nil error. -/
def Atoi (s : String) : Option Int :=
  let body : Bool × List Char :=
    match s.data with
    | '-' :: r => (true, r)
    | '+' :: r => (false, r)
    | r => (false, r)
  if body.2 = [] ∨ ¬ body.2.all Char.isDigit then none
  else
    let v : Int := if body.1 then - (digitsValue body.2 : Int) else (digitsValue body.2 : Int)
    if -(2 : Int) ^ 63 ≤ v ∧ v < (2 : Int) ^ 63 then some v else none

/-! ## Data model (`main.go` lines 12-30) -/

/-- The Go struct `Reference`. -/
structure Reference where
  id : String
  reftype : String
  title : String
  year : String
  month : String
  url : String
  authors : List String
  publisher : String
deriving DecidableEq

/-- The zero value of `Reference`, returned by a lookup of a missing key. -/
def Reference.zero : Reference := ⟨"", "", "", "", "", "", [], ""⟩

/-- The Go struct `Project`; `references = none` is the `nil` map. -/
structure Project where
  id : String
  title : String
  references : Option (GoMap Reference)

/-- The zero value of `Project`. -/
def Project.zero : Project := ⟨"", "", none⟩

/-- Reading a project's map: a `nil` map reads as an empty one. -/
def Project.refs (p : Project) : GoMap Reference := p.references.getD GoMap.empty

/-- The assignment `p.references[key] = ref` on a non-nil map. -/
def Project.setRef (p : Project) (key : String) (ref : Reference) : Project :=
  { p with references := p.references.map (fun m => m.set key ref) }

/-- The statement `delete(p.references, key)`; a no-op on the `nil` map. -/
def Project.delRef (p : Project) (key : String) : Project :=
  { p with references := p.references.map (fun m => m.del key) }

/-- The two global variables `projects` and `references`. -/
structure Store where
  projects : GoMap Project
  references : GoMap Reference

/-- The expression `references[k]`. -/
def Store.reference (st : Store) (k : String) : Reference :=
  (st.references.get k).getD Reference.zero

/-- The expression `projects[k]`. -/
def Store.project (st : Store) (k : String) : Project :=
  (st.projects.get k).getD Project.zero

/-! ## Loading and saving (`setReferences`, `saveReferences`, `saveProjects`) -/

/-- First loop of `setReferences` (lines 47-64) over the rows returned by
`loadCSV`; `none` is the index-out-of-range panic on a row with fewer than
seven columns. -/
def loadReferences : GoMap Reference → List (List String) → Option (GoMap Reference)
  | m, [] => some m
  | m, (id :: reftype :: title :: year :: month :: url :: publisher :: rest) :: rows =>
      loadReferences
        (m.set id ⟨id, reftype, title, year, month, url, rest.map TrimSpace, publisher⟩) rows
  | _, _ :: _ => none

/-- Inner loop of `setReferences` (lines 72-74): link every trailing column. -/
def linkLoaded (references : GoMap Reference) : GoMap Reference → List String → GoMap Reference
  | m, [] => m
  | m, r :: rs => linkLoaded references (m.set r ((references.get r).getD Reference.zero)) rs

/-- Second loop of `setReferences` (lines 66-75); `none` is the panic on a
row with fewer than two columns. -/
def loadProjects (references : GoMap Reference) :
    GoMap Project → List (List String) → Option (GoMap Project)
  | m, [] => some m
  | m, (id :: title :: refIds) :: rows =>
      loadProjects references
        (m.set id ⟨id, title, some (linkLoaded references GoMap.empty refIds)⟩) rows
  | _, _ :: _ => none

/-- The function `setReferences`, on the rows of the two tables. -/
def setReferences (referencesData projectsData : List (List String)) : Option Store :=
  match loadReferences GoMap.empty referencesData with
  | none => none
  | some refs =>
    match loadProjects refs GoMap.empty projectsData with
    | none => none
    | some projs => some ⟨projs, refs⟩

/-- The row `saveReferences` writes for one reference (lines 340-341). -/
def referenceRow (r : Reference) : List String :=
  [r.id, r.reftype, r.title, r.year, r.month, r.url, r.publisher] ++ r.authors

/-- The data rows written by `saveReferences`, the map visited in the order
`visit`. -/
def saveReferences (visit : List (String × Reference)) : List (List String) :=
  visit.map (fun e => referenceRow e.2)

/-- The row `saveProjects` writes for one project (lines 322-325). -/
def projectRow (p : Project) : List String :=
  [p.id, p.title] ++ p.refs.entries.map (fun e => e.2.id)

/-- The data rows written by `saveProjects`. -/
def saveProjects (visit : List (String × Project)) : List (List String) :=
  visit.map (fun e => projectRow e.2)

/-! ## Repository operations performed by the screens -/

/-- The function `getInput`: the next line of standard input; at end of input
`Scan` fails and `Text` is the empty string. -/
def getInput : List String → String × List String
  | [] => ("", [])
  | l :: ls => (l, ls)

/-- Lines 294-312 of `newReference`: derive the id from the first author and
the year, store the record, return `references[id]` and the new store.
`none` is the panic of `authors[0]` on an empty slice. -/
def storeNewReference (st : Store) (title year month publisher url : String)
    (authors : List String) : Option (Reference × Store) :=
  match authors with
  | [] => none
  | first :: _ =>
    let id0 := removeSpaces (first ++ year)
    let id := if st.references.contains id0 then id0 ++ "a" else id0
    let st1 : Store :=
      { st with references :=
          st.references.set id ⟨id, "article", title, year, month, url, authors, publisher⟩ }
    some (st1.reference id, st1)

/-- The author loop of `newReference` (lines 282-293): `authors` collected so
far, remaining input lines.  `none`: the loop never ends, which happens when
the input ends before any author was entered. -/
def readAuthors : List String → List String → Option (List String × List String)
  | authors, [] => if authors = [] then none else some (authors, [])
  | authors, author :: rest =>
      if authors = [] ∧ author = "" then readAuthors authors rest
      else if author = "" then some (authors, rest)
      else readAuthors (authors ++ [author]) rest

/-- The function `newReference` reading from the lines `input`: the returned
reference, the new store and the unread lines; `none` when the call does not
return. -/
def newReference (st : Store) (input : List String) :
    Option (Reference × Store × List String) :=
  let (title, i1) := getInput input
  let (year, i2) := getInput i1
  let (month, i3) := getInput i2
  let (publisher, i4) := getInput i3
  let (url, i5) := getInput i4
  match readAuthors [] i5 with
  | none => none
  | some (authors, rest) =>
    match storeNewReference st title year month publisher url authors with
    | none => none
    | some (ref, st1) => some (ref, st1, rest)

/-- The assignment `projects[projectId].references[key] = ref` (lines 209 and
220); `none` is the panic of an assignment to an entry of a `nil` map, which
is what a missing project has. -/
def linkReference (st : Store) (projectId key : String) (ref : Reference) : Option Store :=
  match (st.project projectId).references with
  | none => none
  | some _ =>
    some { st with projects := st.projects.update projectId (fun p => p.setRef key ref) }

/-- The statement `delete(projects[projectId].references, input)` (line 254). -/
def unlinkReference (st : Store) (projectId key : String) : Store :=
  { st with projects := st.projects.update projectId (fun p => p.delRef key) }

/-- Lines 540-543 of `deleteReference`: delete the id from the map of every
project, then from the global map. -/
def deleteReference (st : Store) (referenceId : String) : Store :=
  { projects := st.projects.mapVals (fun p => p.delRef referenceId)
    references := st.references.del referenceId }

/-- The editable string fields of a reference. -/
inductive Field where
  | title | year | month | url | publisher
deriving DecidableEq

/-- The assignment `ref.<field> = value`. -/
def Field.assign (f : Field) (ref : Reference) (value : String) : Reference :=
  match f with
  | .title => { ref with title := value }
  | .year => { ref with year := value }
  | .month => { ref with month := value }
  | .url => { ref with url := value }
  | .publisher => { ref with publisher := value }

/-- The confirmation printed after a field was changed. -/
def Field.changed : Field → String
  | .title => "Title changed"
  | .year => "Year changed"
  | .month => "Month changed"
  | .url => "Url changed"
  | .publisher => "Publisher changed"

/-- The prompt printed before a field is read. -/
def Field.ask : Field → String
  | .title => "Enter new title"
  | .year => "Enter new year"
  | .month => "Enter new month"
  | .url => "Enter new url"
  | .publisher => "Enter new publisher"

/-- The statements `ref := references[referenceId]; ref.<field> = value;
references[referenceId] = ref` of `editReference`. -/
def editField (st : Store) (referenceId : String) (f : Field) (value : String) : Store :=
  { st with references := st.references.set referenceId (f.assign (st.reference referenceId) value) }

/-- Lines 467-468: `ref.authors = append(ref.authors, author)` and store. -/
def addAuthor (st : Store) (referenceId author : String) : Store :=
  let ref := st.reference referenceId
  { st with references :=
      st.references.set referenceId { ref with authors := ref.authors ++ [author] } }

/-- Lines 488-491 for a parsed index `i` that passed `i < len(authors)`:
`append(authors[:i], authors[i+1:]...)`, stored back.  `none` is the
slice-bounds panic of `authors[:i]` for a negative `i`. -/
def removeAuthor (st : Store) (referenceId : String) (i : Int) : Option Store :=
  let ref := st.reference referenceId
  if i < 0 then none
  else
    let authors := ref.authors.take i.toNat ++ ref.authors.drop (i.toNat + 1)
    some { st with references := st.references.set referenceId { ref with authors := authors } }

/-- Lines 609-613 of `createProject`. -/
def createProject (st : Store) (id title : String) : Store :=
  { st with projects := st.projects.set id ⟨id, title, some GoMap.empty⟩ }

/-- Lines 629, 634-635 of `editProject`: change the title. -/
def editProjectTitle (st : Store) (projectId title : String) : Store :=
  { st with projects := st.projects.set projectId { st.project projectId with title := title } }

/-- Lines 629, 656-658 of `editProject`: move the project to the new key. -/
def renameProject (st : Store) (projectId newId : String) : Store :=
  { st with projects :=
      (st.projects.set newId { st.project projectId with id := newId }).del projectId }

/-- Line 680 of `deleteProject`. -/
def deleteProject (st : Store) (projectId : String) : Store :=
  { st with projects := st.projects.del projectId }

/-- One iteration of the loop of `exportReferences` (lines 569-577). -/
def exportEntry (st : Store) (output : String) (reference : Reference) : String :=
  let referenceId := reference.id
  let output := output ++ ("@" ++ (st.reference referenceId).reftype ++ "\x7b" ++ referenceId ++ ",\n")
  let output := output ++ ("\ttitle = \x7b" ++ (st.reference referenceId).title ++ "\x7d,\n")
  let output := output ++
    ("\tauthor = \x7b" ++ Join (st.reference referenceId).authors " and " ++ "\x7d,\n")
  let output := output ++ ("\tyear = \x7b" ++ (st.reference referenceId).year ++ "\x7d,\n")
  let output := output ++ ("\tmonth = \x7b" ++ (st.reference referenceId).month ++ "\x7d,\n")
  let output := output ++ ("\turl = \x7b" ++ (st.reference referenceId).url ++ "\x7d,\n")
  let output := output ++
    ("\tpublisher = \x7b" ++ (st.reference referenceId).publisher ++ "\x7d,\n")
  output ++ "\x7d\n"

/-- The text `output` built by `exportReferences` (lines 563-578), the
project's map visited in the order `visit`. -/
def exportText (st : Store) (visit : List (String × Reference)) : String :=
  visit.foldl (fun output e => exportEntry st output e.2) ""

/-- The function `exportReferences` up to its `fmt.Println(output)`. -/
def exportReferences (st : Store) (projectId : String) : String :=
  exportText st (st.project projectId).refs.entries

/-! ## The interactive session -/

/-- The points at which the program waits in `getInput`.  A constructor named
after a Go function is the read of that function's `switch`; the others are
the later reads inside a function. -/
inductive Ctl where
  | menu
  | selectProject
  | projectMenu (projectId : String)
  | viewReferences (projectId : String)
  | addReference (projectId : String)
  | addReferenceAdded (projectId : String)
  | removeReference (projectId : String)
  | removeReferenceRemoved (projectId : String)
  | newReferenceTitle (projectId : String)
  | newReferenceYear (projectId title : String)
  | newReferenceMonth (projectId title year : String)
  | newReferencePublisher (projectId title year month : String)
  | newReferenceUrl (projectId title year month publisher : String)
  | newReferenceAuthor (projectId title year month publisher url : String)
      (authors : List String)
  | selectReference
  | referenceMenu (referenceId : String)
  | viewReference (referenceId : String)
  | editReference (referenceId : String)
  | editReferenceField (referenceId : String) (field : Field)
  | editReferencePause (referenceId : String)
  | editReferenceAuthors (referenceId : String)
  | editReferenceAddAuthor (referenceId : String)
  | editReferenceRemoveAuthor (referenceId : String)
  | deleteReference (referenceId : String)
  | deleteReferenceDone
  | exportReferences (projectId : String)
  | createProject
  | createProjectId (title : String)
  | createProjectDone
  | editProject (projectId : String)
  | editProjectTitle (projectId : String)
  | editProjectPause (projectId : String)
  | editProjectId (projectId : String)
  | editProjectCollision (projectId newId : String)
  | editProjectIdChanged (newId : String)
  | deleteProject (projectId : String)
  | deleteProjectDone
deriving DecidableEq

/-- A running session: the two maps, the pending read, and the `newId` of
every `editProject` frame that still has to resume after its nested
`editProject(projectId)` call (line 653), innermost first. -/
structure Session where
  store : Store
  ctl : Ctl
  stack : List String

/-- What one input line leads to; `out` are the lines printed meanwhile. -/
inductive Outcome where
  | running (out : List String) (s : Session)
  | exited (out : List String)
  | returned (out : List String)
  | panicked (out : List String)

/-- The listing `"\t"+id, ":", x.title` printed for each entry of a map. -/
def listing {V : Type} (title : V → String) (m : GoMap V) : List String :=
  m.entries.map (fun e => "\t" ++ e.1 ++ " : " ++ title e.2)

/-- The lines a screen function prints from its entry up to its first
`getInput`. -/
def render (st : Store) : Ctl → List String
  | .menu =>
      ["Main menu", "\t1. Select a project", "\t2. Select a reference", "\tPress enter to exit"]
  | .selectProject =>
      ["Select a project"] ++ listing Project.title st.projects ++
        ["\t0 : Create new project", "\tPress enter to return"]
  | .projectMenu projectId =>
      ["Selected project: " ++ (st.project projectId).title, "\t1. View references",
        "\t2. Add reference", "\t3. Remove reference", "\t4. Export references",
        "\t5. Edit project", "\t6. Delete project", "\tPress enter to return"]
  | .viewReferences projectId =>
      ["References for project: " ++ (st.project projectId).title] ++
        listing Reference.title (st.project projectId).refs ++ ["Press enter to go back"]
  | .addReference projectId =>
      ["Select a reference to add"] ++
        ((st.references.entries.filter
            (fun e => !(st.project projectId).refs.contains e.1)).map
          (fun e => "\t" ++ e.1 ++ " : " ++ e.2.title)) ++
        ["\t0 : New reference", "\tPress enter to return"]
  | .removeReference projectId =>
      ["Select a reference to remove"] ++
        listing Reference.title (st.project projectId).refs ++ ["\tPress enter to return"]
  | .selectReference =>
      ["Select a reference"] ++ listing Reference.title st.references ++
        ["\tPress enter to return"]
  | .referenceMenu referenceId =>
      ["Selected reference: " ++ (st.reference referenceId).title, "\t1. View reference",
        "\t2. Edit reference", "\t3. Delete reference", "\tPress enter to return"]
  | .viewReference referenceId =>
      ["Title: " ++ (st.reference referenceId).title,
        "Authors: " ++ Join (st.reference referenceId).authors ", ",
        "Publisher: " ++ (st.reference referenceId).publisher,
        "Year: " ++ (st.reference referenceId).year,
        "Month: " ++ (st.reference referenceId).month,
        "URL: " ++ (st.reference referenceId).url,
        "Press enter to continue"]
  | .editReference referenceId =>
      ["Editing reference: " ++ (st.reference referenceId).title, "\t1. Edit title",
        "\t2. Edit year", "\t3. Edit month", "\t4. Edit url", "\t5. Edit authors",
        "\t6. Edit publisher", "\tPress enter to return"]
  | .deleteReference referenceId =>
      ["Deleting reference: " ++ (st.reference referenceId).title,
        "Are you sure you want to delete this reference? (y/n)"]
  | .exportReferences projectId =>
      ["Exporting references for project: " ++ (st.project projectId).title, "",
        exportReferences st projectId, "Press enter to continue"]
  | .createProject => ["Enter project title:"]
  | .editProject projectId =>
      ["Editing project: " ++ (st.project projectId).title, "1. Edit title", "2. Edit id",
        "Press enter to return"]
  | .deleteProject projectId =>
      ["Are you sure you want to delete project " ++ (st.project projectId).title ++ " ?", "y/n"]
  | _ => []

/-- A call of the screen function `c`, after `msgs` were printed. -/
def enter (st : Store) (stack : List String) (msgs : List String) (c : Ctl) : Outcome :=
  .running (msgs ++ render st c) ⟨st, c, stack⟩

/-- The return of `editReference` at the end of its inner `switch` (line 510,
no case matched).  Every caller up to the innermost pending `editProject`
frame returns as well; that frame resumes at line 660.  With no such frame
`main` returns. -/
def unwind (st : Store) : List String → Outcome
  | [] => .returned []
  | newId :: stack =>
      .running ["Id changed", "Press enter to continue"] ⟨st, .editProjectIdChanged newId, stack⟩

/-- The lines `i : author` printed by the remove-author screen (lines 479-481). -/
def authorLines (authors : List String) : List String :=
  authors.enum.map (fun e => toString e.1 ++ " : " ++ e.2)

/-- The program from one `getInput` to the next: `input` is the line read at
the pending read of `s`. -/
def step (s : Session) (input : String) : Outcome :=
  let st := s.store
  let stack := s.stack
  match s.ctl with
  | .menu =>
      if input = "1" then enter st stack [] .selectProject
      else if input = "2" then enter st stack [] .selectReference
      else if input = "" then .exited ["Exiting..."]
      else enter st stack ["Invalid input"] .menu
  | .selectProject =>
      if input = "" then enter st stack [] .menu
      else if input = "0" then enter st stack [] .createProject
      else if st.projects.contains input then enter st stack [] (.projectMenu input)
      else enter st stack ["Invalid input"] .selectProject
  | .projectMenu projectId =>
      if input = "1" then enter st stack [] (.viewReferences projectId)
      else if input = "2" then enter st stack [] (.addReference projectId)
      else if input = "3" then enter st stack [] (.removeReference projectId)
      else if input = "4" then enter st stack [] (.exportReferences projectId)
      else if input = "5" then enter st stack [] (.editProject projectId)
      else if input = "6" then enter st stack [] (.deleteProject projectId)
      else if input = "" then enter st stack [] .selectProject
      else enter st stack ["Invalid input"] (.projectMenu projectId)
  | .viewReferences projectId => enter st stack [] (.projectMenu projectId)
  | .addReference projectId =>
      if input = "0" then .running ["Enter title:"] ⟨st, .newReferenceTitle projectId, stack⟩
      else if input = "" then enter st stack [] (.projectMenu projectId)
      else if st.references.contains input then
        if !(st.project projectId).refs.contains input then
          match linkReference st projectId input (st.reference input) with
          | none => .panicked []
          | some st1 =>
              .running ["Reference added", "Press enter to return"]
                ⟨st1, .addReferenceAdded projectId, stack⟩
        else enter st stack ["Reference already in project"] (.addReference projectId)
      else enter st stack ["Invalid input"] (.addReference projectId)
  | .addReferenceAdded projectId => enter st stack [] (.projectMenu projectId)
  | .removeReference projectId =>
      if input = "" then enter st stack [] (.projectMenu projectId)
      else if (st.project projectId).refs.contains input then
        .running ["Reference removed", "Press enter to return"]
          ⟨unlinkReference st projectId input, .removeReferenceRemoved projectId, stack⟩
      else enter st stack ["Invalid input"] (.removeReference projectId)
  | .removeReferenceRemoved projectId => enter st stack [] (.projectMenu projectId)
  | .newReferenceTitle projectId =>
      .running ["Enter year:"] ⟨st, .newReferenceYear projectId input, stack⟩
  | .newReferenceYear projectId title =>
      .running ["Enter month:"] ⟨st, .newReferenceMonth projectId title input, stack⟩
  | .newReferenceMonth projectId title year =>
      .running ["Enter publisher:"] ⟨st, .newReferencePublisher projectId title year input, stack⟩
  | .newReferencePublisher projectId title year month =>
      .running ["Enter url:"] ⟨st, .newReferenceUrl projectId title year month input, stack⟩
  | .newReferenceUrl projectId title year month publisher =>
      .running ["Enter author: (Press enter to finish)"]
        ⟨st, .newReferenceAuthor projectId title year month publisher input [], stack⟩
  | .newReferenceAuthor projectId title year month publisher url authors =>
      if authors = [] ∧ input = "" then
        .running ["Please enter at least one author", "Enter author: (Press enter to finish)"]
          ⟨st, .newReferenceAuthor projectId title year month publisher url authors, stack⟩
      else if input = "" then
        match storeNewReference st title year month publisher url authors with
        | none => .panicked []
        | some (ref, st1) =>
          match linkReference st1 projectId ref.id ref with
          | none => .panicked []
          | some st2 => enter st2 stack [] (.projectMenu projectId)
      else
        .running ["Enter author: (Press enter to finish)"]
          ⟨st, .newReferenceAuthor projectId title year month publisher url (authors ++ [input]),
            stack⟩
  | .selectReference =>
      if input = "" then enter st stack [] .menu
      else if st.references.contains input then enter st stack [] (.referenceMenu input)
      else enter st stack ["Invalid input"] .selectReference
  | .referenceMenu referenceId =>
      if input = "1" then enter st stack [] (.viewReference referenceId)
      else if input = "2" then enter st stack [] (.editReference referenceId)
      else if input = "3" then enter st stack [] (.deleteReference referenceId)
      else if input = "" then enter st stack [] .selectReference
      else enter st stack ["Invalid input"] (.referenceMenu referenceId)
  | .viewReference referenceId => enter st stack [] (.referenceMenu referenceId)
  | .editReference referenceId =>
      if input = "1" then
        .running [Field.title.ask] ⟨st, .editReferenceField referenceId .title, stack⟩
      else if input = "2" then
        .running [Field.year.ask] ⟨st, .editReferenceField referenceId .year, stack⟩
      else if input = "3" then
        .running [Field.month.ask] ⟨st, .editReferenceField referenceId .month, stack⟩
      else if input = "4" then
        .running [Field.url.ask] ⟨st, .editReferenceField referenceId .url, stack⟩
      else if input = "5" then
        .running ["\t1. Add author", "\t2. Remove author", "\tPress enter to return"]
          ⟨st, .editReferenceAuthors referenceId, stack⟩
      else if input = "6" then
        .running [Field.publisher.ask] ⟨st, .editReferenceField referenceId .publisher, stack⟩
      else if input = "" then enter st stack [] (.referenceMenu referenceId)
      else enter st stack ["Invalid input"] (.editReference referenceId)
  | .editReferenceField referenceId field =>
      .running [field.changed, "Press enter to continue"]
        ⟨editField st referenceId field input, .editReferencePause referenceId, stack⟩
  | .editReferencePause referenceId => enter st stack [] (.editReference referenceId)
  | .editReferenceAuthors referenceId =>
      if input = "1" then
        .running ["Enter new author"] ⟨st, .editReferenceAddAuthor referenceId, stack⟩
      else if input = "2" then
        .running
          (["Enter author to remove"] ++ authorLines (st.reference referenceId).authors ++
            ["Press enter to return"])
          ⟨st, .editReferenceRemoveAuthor referenceId, stack⟩
      else unwind st stack
  | .editReferenceAddAuthor referenceId =>
      .running ["Author added", "Press enter to continue"]
        ⟨addAuthor st referenceId input, .editReferencePause referenceId, stack⟩
  | .editReferenceRemoveAuthor referenceId =>
      if input = "" then enter st stack [] (.editReference referenceId)
      else
        match Atoi input with
        | some i =>
          if i < ((st.reference referenceId).authors.length : Int) then
            match removeAuthor st referenceId i with
            | none => .panicked []
            | some st1 =>
                .running ["Author removed", "Press enter to continue"]
                  ⟨st1, .editReferencePause referenceId, stack⟩
          else enter st stack ["Invalid input"] (.editReference referenceId)
        | none => enter st stack ["Invalid input"] (.editReference referenceId)
  | .deleteReference referenceId =>
      if input = "y" then
        .running ["Reference deleted", "Press enter to continue"]
          ⟨deleteReference st referenceId, .deleteReferenceDone, stack⟩
      else if input = "n" then enter st stack [] (.referenceMenu referenceId)
      else enter st stack ["Invalid input"] (.deleteReference referenceId)
  | .deleteReferenceDone => enter st stack [] .selectReference
  | .exportReferences projectId => enter st stack [] (.projectMenu projectId)
  | .createProject => .running ["Enter id:"] ⟨st, .createProjectId input, stack⟩
  | .createProjectId title =>
      if st.projects.contains input then
        .running ["Project with this id already exists", "Press enter to continue"]
          ⟨st, .createProjectDone, stack⟩
      else
        .running ["Project created", "Press enter to continue"]
          ⟨createProject st input title, .createProjectDone, stack⟩
  | .createProjectDone => enter st stack [] .selectProject
  | .editProject projectId =>
      if input = "1" then
        .running ["Enter new title"] ⟨st, .editProjectTitle projectId, stack⟩
      else if input = "2" then
        .running ["Enter new id"] ⟨st, .editProjectId projectId, stack⟩
      else enter st stack [] (.projectMenu projectId)
  | .editProjectTitle projectId =>
      .running ["Title changed", "Press enter to continue"]
        ⟨editProjectTitle st projectId input, .editProjectPause projectId, stack⟩
  | .editProjectPause projectId => enter st stack [] (.editProject projectId)
  | .editProjectId projectId =>
      if st.projects.contains input then
        .running ["Project with this id already exists", "Press enter to continue"]
          ⟨st, .editProjectCollision projectId input, stack⟩
      else
        .running ["Id changed", "Press enter to continue"]
          ⟨renameProject st projectId input, .editProjectIdChanged input, stack⟩
  | .editProjectCollision projectId newId =>
      enter st (newId :: stack) [] (.editProject projectId)
  | .editProjectIdChanged newId => enter st stack [] (.editProject newId)
  | .deleteProject projectId =>
      if input = "y" then
        .running ["Project deleted", "Press enter to continue"]
          ⟨deleteProject st projectId, .deleteProjectDone, stack⟩
      else if input = "n" then enter st stack [] (.projectMenu projectId)
      else enter st stack ["Invalid input"] (.deleteProject projectId)
  | .deleteProjectDone => enter st stack [] .selectProject

/-- Prefix the lines `out` to the transcript of an outcome. -/
def Outcome.after (out : List String) : Outcome → Outcome
  | .running o s => .running (out ++ o) s
  | .exited o => .exited (out ++ o)
  | .returned o => .returned (out ++ o)
  | .panicked o => .panicked (out ++ o)

/-- Feed the lines `inputs` to the session, one per read, and stop when the
process ends. -/
def run : Session → List String → Outcome
  | s, [] => .running [] s
  | s, line :: rest =>
      match step s line with
      | .running out s1 => (run s1 rest).after out
      | o => o

/-- The function `main` followed by the session on `inputs`; a panic of
`setReferences` ends the process before anything but the screen reset. -/
def main (referencesData projectsData : List (List String)) (inputs : List String) : Outcome :=
  match setReferences referencesData projectsData with
  | none => .panicked []
  | some st =>
      (run ⟨st, .menu, []⟩ inputs).after
        (["Reference manager",
          "\t- Loaded " ++ toString st.projects.entries.length ++ " project(s)",
          "\t- Loaded " ++ toString st.references.entries.length ++ " reference(s)"] ++
          render st .menu)

/-- The sessions the program can be in: after any load, after any input. -/
inductive Reachable (referencesData projectsData : List (List String)) : Session → Prop
  | start (st : Store) (h : setReferences referencesData projectsData = some st) :
      Reachable referencesData projectsData ⟨st, .menu, []⟩
  | next (s s1 : Session) (input : String) (out : List String)
      (hs : Reachable referencesData projectsData s) (h : step s input = .running out s1) :
      Reachable referencesData projectsData s1

/-- How a run stands. -/
inductive Status where
  | running | exited | returned | panicked
deriving DecidableEq

/-- The status of an outcome: still reading input, ended by `os.Exit(0)`,
ended by `main` returning, or ended by a runtime panic. -/
def Outcome.status : Outcome → Status
  | .running _ _ => .running
  | .exited _ => .exited
  | .returned _ => .returned
  | .panicked _ => .panicked

/-- The lines printed. -/
def Outcome.out : Outcome → List String
  | .running o _ => o
  | .exited o => o
  | .returned o => o
  | .panicked o => o

/-- The session of a run that has not ended. -/
def Outcome.session : Outcome → Option Session
  | .running _ s => some s
  | _ => none

/-! ## Properties of a store -/

/-- Every key of every project's map is a key of the global map. -/
def LinksResolve (st : Store) : Prop :=
  ∀ e ∈ st.projects.entries, ∀ k ∈ e.2.refs.keys, k ∈ st.references.keys

instance (st : Store) : Decidable (LinksResolve st) := by
  unfold LinksResolve; infer_instance

/-- Every value of the map carries its own key as `id`. -/
def OwnIds (m : GoMap Reference) : Prop :=
  ∀ e ∈ m.entries, e.2.id = e.1

instance (m : GoMap Reference) : Decidable (OwnIds m) := by
  unfold OwnIds; infer_instance

/-- Every record stored in the map of a project carries the key it is
stored under as `id`. -/
def CopiesOwnIds (st : Store) : Prop :=
  ∀ e ∈ st.projects.entries, OwnIds e.2.refs

instance (st : Store) : Decidable (CopiesOwnIds st) := by
  unfold CopiesOwnIds; infer_instance

/-- Every reference of the global map has at least one author. -/
def AuthorsNonEmpty (st : Store) : Prop :=
  ∀ e ∈ st.references.entries, e.2.authors ≠ []

instance (st : Store) : Decidable (AuthorsNonEmpty st) := by
  unfold AuthorsNonEmpty; infer_instance

/-- The reference a reference screen is about, if the pending read belongs
to one. -/
def Ctl.referenceId : Ctl → Option String
  | .referenceMenu r => some r
  | .viewReference r => some r
  | .editReference r => some r
  | .editReferenceField r _ => some r
  | .editReferencePause r => some r
  | .editReferenceAuthors r => some r
  | .editReferenceAddAuthor r => some r
  | .editReferenceRemoveAuthor r => some r
  | .deleteReference r => some r
  | _ => none

/-- The reference a reference screen is about is a key of the global map. -/
def CtlResolves (s : Session) : Prop :=
  ∀ r, s.ctl.referenceId = some r → r ∈ s.store.references.keys

/-- The input `input` at the pending read of `s` deletes the only author of
a reference: the remove-author screen of a reference with at most one author
is given an index that passes `i < len(authors)`. -/
def removesOnlyAuthor (s : Session) (input : String) : Bool :=
  match s.ctl with
  | .editReferenceRemoveAuthor referenceId =>
      decide ((s.store.reference referenceId).authors.length ≤ 1) && input ≠ "" &&
      (match Atoi input with
        | some i => decide (i < ((s.store.reference referenceId).authors.length : Int))
        | none => false)
  | _ => false

/-- The sessions reachable without ever deleting the only author of a
reference. -/
inductive ReachableKeepingAuthors (referencesData projectsData : List (List String)) :
    Session → Prop
  | start (st : Store) (h : setReferences referencesData projectsData = some st) :
      ReachableKeepingAuthors referencesData projectsData ⟨st, .menu, []⟩
  | next (s s1 : Session) (input : String) (out : List String)
      (hs : ReachableKeepingAuthors referencesData projectsData s)
      (hk : removesOnlyAuthor s input = false) (h : step s input = .running out s1) :
      ReachableKeepingAuthors referencesData projectsData s1

/-- The citation record of the export format, as the specification words it:
entry type, id, title, authors joined with " and ", year, month, url and
publisher of the record `r`, under the id `id`. -/
def citationRecord (id : String) (r : Reference) : String :=
  "@" ++ r.reftype ++ "\x7b" ++ id ++ ",\n\ttitle = \x7b" ++ r.title ++
    "\x7d,\n\tauthor = \x7b" ++ Join r.authors " and " ++
    "\x7d,\n\tyear = \x7b" ++ r.year ++ "\x7d,\n\tmonth = \x7b" ++ r.month ++
    "\x7d,\n\turl = \x7b" ++ r.url ++ "\x7d,\n\tpublisher = \x7b" ++ r.publisher ++
    "\x7d,\n\x7d\n"

/-- The record reloaded from the row of `r`: every author trimmed. -/
def Reference.trimmed (r : Reference) : Reference :=
  { r with authors := r.authors.map TrimSpace }

/-! ## Lookup lemmas for maps -/

namespace GoMap

variable {V : Type}

theorem find_filter_ne (l : List (String × V)) (k k' : String) :
    find (l.filter (fun e => !decide (e.1 = k))) k' = if k' = k then none else find l k' := by
  induction l with
  | nil => simp [find]
  | cons e l ih =>
    by_cases h1 : e.1 = k
    · rw [List.filter_cons_of_neg (by simpa using h1), ih]
      by_cases h2 : k' = k
      · simp [h2]
      · have : ¬ e.1 = k' := by rw [h1]; exact fun h => h2 h.symm
        simp [h2, find, this]
    · rw [List.filter_cons_of_pos (by simpa using h1)]
      by_cases h3 : e.1 = k'
      · have : ¬ k' = k := by rw [← h3]; exact h1
        simp [find, h3, this]
      · simp [find, h3, ih]

theorem get_empty (k : String) : (empty : GoMap V).get k = none := rfl

theorem get_set (m : GoMap V) (k : String) (v : V) (k' : String) :
    (m.set k v).get k' = if k' = k then some v else m.get k' := by
  unfold get set
  by_cases h : k' = k
  · subst h; simp [find]
  · have h' : ¬ k = k' := fun e => h e.symm
    simp [find, h, h', find_filter_ne]

theorem get_del (m : GoMap V) (k k' : String) :
    (m.del k).get k' = if k' = k then none else m.get k' := by
  unfold get del
  exact find_filter_ne _ _ _

theorem get_mapVals (f : V → V) (m : GoMap V) (k : String) :
    (m.mapVals f).get k = (m.get k).map f := by
  unfold get mapVals
  simp only
  induction m.entries with
  | nil => simp [find]
  | cons e l ih =>
    by_cases h : e.1 = k <;> simp [find, h, ih]

theorem get_update (m : GoMap V) (k : String) (f : V → V) (k' : String) :
    (m.update k f).get k' = if k' = k then (m.get k').map f else m.get k' := by
  unfold get update
  simp only
  induction m.entries with
  | nil => simp [find]
  | cons e l ih =>
    by_cases h : e.1 = k' <;> by_cases h2 : e.1 = k <;> by_cases h3 : k' = k <;>
      simp_all [find]

theorem find_isSome (l : List (String × V)) (k : String) :
    (find l k).isSome = true ↔ k ∈ l.map Prod.fst := by
  induction l with
  | nil => simp [find]
  | cons e l ih =>
    by_cases h : e.1 = k
    · simp [find, h]
    · have h' : ¬ k = e.1 := fun x => h x.symm
      simp [find, h, h', ih]

theorem contains_iff (m : GoMap V) (k : String) : m.contains k = true ↔ k ∈ m.keys :=
  find_isSome _ _

theorem find_of_mem (l : List (String × V)) (hl : (l.map Prod.fst).Nodup) (k : String) (v : V)
    (h : (k, v) ∈ l) : find l k = some v := by
  induction l with
  | nil => simp at h
  | cons e l ih =>
    simp only [List.map_cons, List.nodup_cons] at hl
    rcases List.mem_cons.1 h with h | h
    · subst h; simp [find]
    · have : ¬ e.1 = k := by
        intro he
        exact hl.1 (he ▸ List.mem_map_of_mem Prod.fst h)
      simp [find, this, ih hl.2 h]

theorem mem_of_find (l : List (String × V)) (k : String) (v : V)
    (h : find l k = some v) : (k, v) ∈ l := by
  induction l with
  | nil => simp [find] at h
  | cons e l ih =>
    by_cases he : e.1 = k
    · simp [find, he] at h
      subst h; subst he; simp
    · simp [find, he] at h
      exact List.mem_cons_of_mem _ (ih h)

theorem get_eq_some_iff (m : GoMap V) (k : String) (v : V) :
    m.get k = some v ↔ (k, v) ∈ m.entries :=
  ⟨mem_of_find _ _ _, find_of_mem _ m.nodup _ _⟩

theorem mem_keys_iff (m : GoMap V) (k : String) : k ∈ m.keys ↔ ∃ v, m.get k = some v := by
  rw [← contains_iff, contains, Option.isSome_iff_exists]

theorem not_mem_keys_iff (m : GoMap V) (k : String) : k ∉ m.keys ↔ m.get k = none := by
  rw [mem_keys_iff]
  cases m.get k <;> simp

end GoMap

theorem Project.refs_delRef_get (p : Project) (r k : String) :
    (p.delRef r).refs.get k = if k = r then none else p.refs.get k := by
  unfold Project.delRef Project.refs
  cases p.references with
  | none => simp [GoMap.get_empty]
  | some m => simp [GoMap.get_del]

/-- C1: confirming `deleteReference(r)` with "y" removes `r` from the global
map and from the map of every project, and leaves every other reference, the
set of projects, their ids and titles and every other link as they were. -/
theorem deleteReference_cascades (st : Store) (stack : List String) (r : String) :
    step ⟨st, .deleteReference r, stack⟩ "y"
      = .running ["Reference deleted", "Press enter to continue"]
          ⟨deleteReference st r, .deleteReferenceDone, stack⟩ ∧
    r ∉ (deleteReference st r).references.keys ∧
    (∀ e ∈ (deleteReference st r).projects.entries, r ∉ e.2.refs.keys) ∧
    (∀ k, k ≠ r → (deleteReference st r).references.get k = st.references.get k) ∧
    (deleteReference st r).projects.keys = st.projects.keys ∧
    (∀ pid, ((deleteReference st r).projects.get pid).map
          (fun p => (p.id, p.title, p.references.isSome))
        = (st.projects.get pid).map (fun p => (p.id, p.title, p.references.isSome))) ∧
    (∀ pid k, k ≠ r →
        ((deleteReference st r).projects.get pid).map (fun p => p.refs.get k)
          = (st.projects.get pid).map (fun p => p.refs.get k)) := by
  refine ⟨by simp [step], ?_, ?_, ?_, ?_, ?_, ?_⟩
  · rw [GoMap.not_mem_keys_iff]; simp [deleteReference, GoMap.get_del]
  · intro e he
    simp only [deleteReference, GoMap.mapVals, List.mem_map] at he
    obtain ⟨e0, _, rfl⟩ := he
    rw [GoMap.not_mem_keys_iff, Project.refs_delRef_get]; simp
  · intro k hk; simp [deleteReference, GoMap.get_del, hk]
  · simp [deleteReference, GoMap.mapVals, GoMap.keys, List.map_map, Function.comp_def]
  · intro pid
    simp only [deleteReference, GoMap.get_mapVals, Option.map_map]
    congr 1
    funext p
    cases h : p.references <;> simp [Project.delRef, h]
  · intro pid k hk
    simp only [deleteReference, GoMap.get_mapVals, Option.map_map]
    congr 1
    funext p
    simp [Project.refs_delRef_get, hk]

/-- C8: in `editProject(old)`, choosing "2" and entering an id that is already
a key of the project map (the old id included) leaves the whole store as it
was and prints "Project with this id already exists". -/
theorem editProject_rename_collision (st : Store) (stack : List String) (old new : String)
    (h : st.projects.contains new = true) :
    run ⟨st, .editProject old, stack⟩ ["2", new]
      = .running ["Enter new id", "Project with this id already exists",
          "Press enter to continue"] ⟨st, .editProjectCollision old new, stack⟩ := by
  simp [run, step, h, Outcome.after]

/-- Instance of C8: projects "A" and "B" exist and "A" is renamed to "B". -/
theorem editProject_rename_collision_witness :
    (createProject (createProject ⟨GoMap.empty, GoMap.empty⟩ "A" "a") "B" "b").projects.contains
        "B" = true ∧
    run ⟨createProject (createProject ⟨GoMap.empty, GoMap.empty⟩ "A" "a") "B" "b",
        .editProject "A", []⟩ ["2", "B"]
      = .running ["Enter new id", "Project with this id already exists",
          "Press enter to continue"]
          ⟨createProject (createProject ⟨GoMap.empty, GoMap.empty⟩ "A" "a") "B" "b",
            .editProjectCollision "A" "B", []⟩ :=
  ⟨by decide, editProject_rename_collision _ [] "A" "B" (by decide)⟩

/-- C7, the part the code breaks: a negative index typed at the remove-author
screen passes the test `i < len(authors)` and the slice expression
`authors[:i]` panics; nothing is rejected and the process dies. -/
theorem editReference_remove_negative_panics (st : Store) (stack : List String)
    (referenceId input : String) (i : Int) (h : Atoi input = some i) (hi : i < 0) :
    step ⟨st, .editReferenceRemoveAuthor referenceId, stack⟩ input = .panicked [] := by
  have hne : input ≠ "" := by
    rintro rfl
    simp [Atoi] at h
  have hlt : i < ((st.reference referenceId).authors.length : Int) :=
    lt_of_lt_of_le hi (Int.ofNat_nonneg _)
  simp [step, hne, h, hlt, removeAuthor, hi]

/-- Instance of C7: the line "-1" at the remove-author screen of a reference with one author. -/
theorem editReference_remove_negative_panics_witness :
    Atoi "-1" = some (-1) ∧ (-1 : Int) < 0 ∧
    step ⟨⟨GoMap.empty, GoMap.empty.set "r" ⟨"r", "article", "T", "2000", "", "", ["A"], "p"⟩⟩,
        .editReferenceRemoveAuthor "r", []⟩ "-1"
      = .panicked [] :=
  ⟨by decide, by decide, editReference_remove_negative_panics _ [] "r" "-1" (-1) (by decide)
    (by decide)⟩

/-- The part of C7 the code keeps: an index `0 <= i < n` deletes exactly the
entry at position `i`. -/
theorem editReference_remove_in_range (st : Store) (stack : List String)
    (referenceId input : String) (i : Nat) (h : Atoi input = some (i : Int))
    (hi : i < (st.reference referenceId).authors.length) :
    ∃ st1, step ⟨st, .editReferenceRemoveAuthor referenceId, stack⟩ input
        = .running ["Author removed", "Press enter to continue"]
            ⟨st1, .editReferencePause referenceId, stack⟩ ∧
      (st1.reference referenceId).authors = (st.reference referenceId).authors.eraseIdx i := by
  have hne : input ≠ "" := by
    rintro rfl
    simp [Atoi] at h
  have hlt : (i : Int) < ((st.reference referenceId).authors.length : Int) := by exact_mod_cast hi
  refine ⟨_, by simp [step, hne, h, hlt, removeAuthor]; rfl, ?_⟩
  simp [Store.reference, GoMap.get_set, List.eraseIdx_eq_take_drop_succ]

/-- The part of C7 the code keeps: an index `i >= n` is rejected with
"Invalid input" and the store is unchanged. -/
theorem editReference_remove_too_large (st : Store) (stack : List String)
    (referenceId input : String) (i : Int) (h : Atoi input = some i)
    (hi : ((st.reference referenceId).authors.length : Int) ≤ i) :
    step ⟨st, .editReferenceRemoveAuthor referenceId, stack⟩ input
      = enter st stack ["Invalid input"] (.editReference referenceId) := by
  have hne : input ≠ "" := by
    rintro rfl
    simp [Atoi] at h
  simp [step, hne, h, not_lt.2 hi]

/-- C10, broken by the code: after "2", an existing non-empty reference id,
"2" and "5" the authors sub-menu is open, and any line other than "1" and "2"
(the empty line in particular) makes `editReference` return; with no pending
frame every caller returns and `main` runs to its end, away from the main
menu. -/
theorem session_ends_in_authors_menu (st : Store) (r : String)
    (h : st.references.contains r = true) (hr : r ≠ "") :
    (run ⟨st, .menu, []⟩ ["2", r, "2", "5", ""]).status = .returned := by
  simp [run, step, enter, unwind, h, hr, Outcome.after, Outcome.status]

/-- Instance of C10: a store holding only the reference "r". -/
theorem session_ends_in_authors_menu_witness :
    (⟨GoMap.empty,
        GoMap.empty.set "r" ⟨"r", "article", "T", "2000", "", "", ["A"], "p"⟩⟩ :
        Store).references.contains "r" = true ∧
    "r" ≠ "" ∧
    (run ⟨⟨GoMap.empty, GoMap.empty.set "r" ⟨"r", "article", "T", "2000", "", "", ["A"], "p"⟩⟩,
        .menu, []⟩
      ["2", "r", "2", "5", ""]).status = .returned :=
  ⟨by decide, by decide, session_ends_in_authors_menu _ "r" (by decide) (by decide)⟩

/-- C9, broken by the code: load reference "r" titled "Old" linked to project
"P", change the title to "New" through `editReference`, then open
`viewReferences("P")`: the project still holds the record it copied when the
tables were loaded, and the listing shows "Old" while the global map says
"New". -/
theorem viewReferences_shows_stale_title :
    ((main [["r", "article", "Old", "2000", "", "", "", "A"]] [["P", "Proj", "r"]]
        ["2", "r", "2", "1", "New", "", "", "", "", "1", "P", "1"]).session).map
      (fun s => (s.ctl, render s.store s.ctl, (s.store.reference "r").title,
        ((s.store.project "P").refs.get "r").map Reference.title))
      = some (.viewReferences "P",
          ["References for project: Proj", "\tr : Old", "Press enter to go back"],
          "New", some "Old") := by
  decide

theorem readAuthors_isSome (input authors : List String) :
    (readAuthors authors input).isSome = true ↔ authors ≠ [] ∨ ∃ l ∈ input, l ≠ "" := by
  induction input generalizing authors with
  | nil => by_cases h : authors = [] <;> simp [readAuthors, h]
  | cons a rest ih =>
    unfold readAuthors
    by_cases h1 : authors = [] ∧ a = ""
    · rw [if_pos h1, ih]; simp [h1.1, h1.2]
    · rw [if_neg h1]
      by_cases h2 : a = ""
      · have : authors ≠ [] := fun h => h1 ⟨h, h2⟩
        simp [h2, this]
      · rw [if_neg h2, ih]; simp [h2]

theorem readAuthors_extends (input authors result rest : List String)
    (h : readAuthors authors input = some (result, rest)) :
    result ≠ [] ∧ ∃ more, result = authors ++ more := by
  induction input generalizing authors with
  | nil =>
    by_cases h0 : authors = []
    · simp [readAuthors, h0] at h
    · simp [readAuthors, h0] at h
      exact ⟨h.1 ▸ h0, [], by simp [h.1]⟩
  | cons a tail ih =>
    unfold readAuthors at h
    by_cases h1 : authors = [] ∧ a = ""
    · rw [if_pos h1] at h; exact ih _ h
    · rw [if_neg h1] at h
      by_cases h2 : a = ""
      · have h0 : authors ≠ [] := fun h => h1 ⟨h, h2⟩
        rw [if_pos h2] at h
        simp at h
        exact ⟨h.1 ▸ h0, [], by simp [h.1]⟩
      · rw [if_neg h2] at h
        obtain ⟨hne, more, hm⟩ := ih _ h
        exact ⟨hne, a :: more, by simp [hm]⟩

/-- C3: `newReference` returns exactly when some non-empty line follows the
five field lines, and every reference `R` it returns has at least one author,
the year that was typed, and the id `base` or `base ++ "a"`, where `base`
is the first author followed by the year with every space removed and the
suffix is added exactly when `base` was a key of the store before the call;
the returned record is the one stored under that id. -/
theorem newReference_id (st : Store) (input : List String) :
    ((newReference st input).isSome = true ↔ ∃ l ∈ input.drop 5, l ≠ "") ∧
    ∀ R st1 rest, newReference st input = some (R, st1, rest) →
      1 ≤ R.authors.length ∧
      R.year = (input.drop 1).headD "" ∧
      R.id = (if st.references.contains (removeSpaces (R.authors.headD "" ++ R.year)) = true
              then removeSpaces (R.authors.headD "" ++ R.year) ++ "a"
              else removeSpaces (R.authors.headD "" ++ R.year)) ∧
      st1.references.get R.id = some R ∧ st1.projects = st.projects := by
  have hdrop : ∀ inp : List String, (getInput inp).2 = inp.drop 1 := by
    intro inp; cases inp <;> rfl
  have hhead : ∀ inp : List String, (getInput inp).1 = inp.headD "" := by
    intro inp; cases inp <;> rfl
  have hin : (getInput (getInput (getInput (getInput (getInput input).2).2).2).2).2
      = input.drop 5 := by
    simp [hdrop]
  constructor
  · have hiff := readAuthors_isSome (input.drop 5) []
    simp only [ne_eq, not_true_eq_false, false_or] at hiff
    rw [← hiff, ← hin]
    simp only [newReference]
    cases hra : readAuthors [] _ with
    | none => simp
    | some p =>
      obtain ⟨authors, rest⟩ := p
      obtain ⟨hne, -⟩ := readAuthors_extends _ _ _ _ hra
      cases authors with
      | nil => exact absurd rfl hne
      | cons a as => simp [storeNewReference]
  · intro R st1 rest h
    simp only [newReference] at h
    cases hra : readAuthors [] (getInput (getInput (getInput (getInput (getInput input).2).2).2).2).2 with
    | none => simp [hra] at h
    | some p =>
      obtain ⟨authors, rest'⟩ := p
      cases authors with
      | nil => simp [hra, storeNewReference] at h
      | cons a as =>
        simp only [hra, storeNewReference, Option.some.injEq, Prod.mk.injEq] at h
        obtain ⟨hR, hst, -⟩ := h
        subst hst
        simp only [Store.reference, GoMap.get_set, if_true, Option.getD_some] at hR
        subst hR
        simp [GoMap.get_set, hhead, hdrop]

/-- Instance of C3: author "Ada Lovelace" and year "1843" give the id
"AdaLovelace1843", and "AdaLovelace1843a" when that id is taken. -/
theorem newReference_id_witness :
    newReference ⟨GoMap.empty, GoMap.empty⟩ ["T", "1843", "", "", "", "Ada Lovelace", ""]
      = some (⟨"AdaLovelace1843", "article", "T", "1843", "", "", ["Ada Lovelace"], ""⟩,
          ⟨GoMap.empty, GoMap.empty.set "AdaLovelace1843"
            ⟨"AdaLovelace1843", "article", "T", "1843", "", "", ["Ada Lovelace"], ""⟩⟩, []) ∧
    (newReference
        ⟨GoMap.empty, GoMap.empty.set "AdaLovelace1843"
          ⟨"AdaLovelace1843", "article", "T", "1843", "", "", ["Ada Lovelace"], ""⟩⟩
        ["T2", "1843", "", "", "", "Ada Lovelace", ""]).map
        (fun x => x.1.id) = some "AdaLovelace1843a" ∧
    1 ≤ ["Ada Lovelace"].length ∧
    (GoMap.empty.set "AdaLovelace1843"
        (⟨"AdaLovelace1843", "article", "T", "1843", "", "", ["Ada Lovelace"], ""⟩ :
          Reference)).get "AdaLovelace1843"
      = some ⟨"AdaLovelace1843", "article", "T", "1843", "", "", ["Ada Lovelace"], ""⟩ :=
  have h := (newReference_id ⟨GoMap.empty, GoMap.empty⟩
    ["T", "1843", "", "", "", "Ada Lovelace", ""]).2
      ⟨"AdaLovelace1843", "article", "T", "1843", "", "", ["Ada Lovelace"], ""⟩
      ⟨GoMap.empty, GoMap.empty.set "AdaLovelace1843"
        ⟨"AdaLovelace1843", "article", "T", "1843", "", "", ["Ada Lovelace"], ""⟩⟩ [] rfl
  ⟨rfl, by decide, h.1, h.2.2.2.1⟩

theorem exportEntry_eq (st : Store) (output : String) (ref : Reference) :
    exportEntry st output ref = output ++ citationRecord ref.id (st.reference ref.id) := by
  apply String.ext
  simp [exportEntry, citationRecord, String.data_append, List.append_assoc]

theorem exportText_fold (st : Store) (visit : List (String × Reference)) (acc : String) :
    visit.foldl (fun output e => exportEntry st output e.2) acc
      = (visit.map (fun e => citationRecord e.2.id (st.reference e.2.id))).foldl
          (fun r s => r ++ s) acc := by
  induction visit generalizing acc with
  | nil => rfl
  | cons e l ih =>
    simp only [List.foldl_cons, List.map_cons]
    rw [ih, exportEntry_eq]

theorem loadReferences_saved (l : List (String × Reference)) (m : GoMap Reference) :
    loadReferences m (saveReferences l)
      = some (l.foldl (fun acc e => acc.set e.2.id e.2.trimmed) m) := by
  induction l generalizing m with
  | nil => rfl
  | cons e l ih =>
    have := ih (m.set e.2.id e.2.trimmed)
    simp only [saveReferences] at this
    simpa [saveReferences, referenceRow, loadReferences, Reference.trimmed] using this

theorem get_foldl_set (l : List (String × Reference)) (m : GoMap Reference) (k : String)
    (hown : ∀ e ∈ l, e.2.id = e.1) (hnd : (l.map Prod.fst).Nodup) :
    (l.foldl (fun acc e => acc.set e.2.id e.2.trimmed) m).get k
      = match GoMap.find l k with
        | some r => some r.trimmed
        | none => m.get k := by
  induction l generalizing m with
  | nil => rfl
  | cons e l ih =>
    simp only [List.map_cons, List.nodup_cons] at hnd
    rw [List.foldl_cons, ih _ (fun x hx => hown x (List.mem_cons_of_mem _ hx)) hnd.2]
    have he := hown e (List.mem_cons_self _ _)
    by_cases hk : e.1 = k
    · have hnone : GoMap.find l k = none := by
        cases hf : GoMap.find l k with
        | none => rfl
        | some v =>
          exact absurd (hk ▸ List.mem_map_of_mem Prod.fst (GoMap.mem_of_find _ _ _ hf)) hnd.1
      simp [GoMap.find, hk, hnone, GoMap.get_set, he]
    · have hk' : ¬ k = e.1 := fun h => hk h.symm
      cases hf : GoMap.find l k <;> simp [GoMap.find, hk, hk', hf, GoMap.get_set, he]

theorem find_perm (l1 l2 : List (String × Reference)) (h : l1.Perm l2)
    (hnd : (l2.map Prod.fst).Nodup) (k : String) : GoMap.find l1 k = GoMap.find l2 k := by
  have hnd1 : (l1.map Prod.fst).Nodup := (h.map Prod.fst).nodup_iff.2 hnd
  cases h1 : GoMap.find l1 k with
  | some v =>
    exact (GoMap.find_of_mem _ hnd _ _ (h.subset (GoMap.mem_of_find _ _ _ h1))).symm
  | none =>
    cases h2 : GoMap.find l2 k with
    | none => rfl
    | some v =>
      have := GoMap.find_of_mem _ hnd1 _ _ (h.symm.subset (GoMap.mem_of_find _ _ _ h2))
      rw [h1] at this
      exact absurd this (by simp)

theorem loadProjects_total (references : GoMap Reference) (projectsData : List (List String))
    (m : GoMap Project) (hp : ∀ row ∈ projectsData, 2 ≤ row.length) :
    ∃ pm, loadProjects references m projectsData = some pm := by
  induction projectsData generalizing m with
  | nil => exact ⟨m, rfl⟩
  | cons row rows ih =>
    have hrow := hp row (List.mem_cons_self _ _)
    match row, hrow with
    | id :: title :: refIds, _ =>
      simp only [loadProjects]
      exact ih _ (fun r hr => hp r (List.mem_cons_of_mem _ hr))

/-- C4 as the code has it: for a reference map whose values carry their own
key as id, the rows written by `saveReferences` (in whatever order the map
is visited) are loaded back by `setReferences`, together with any projects
table it accepts, into a map with the same ids and the same field values in
which every author string has its leading and trailing white space trimmed
and keeps its position; the reloaded map equals the original when no author
string starts or ends with white space. -/
theorem save_load_references (st : Store) (visit : List (String × Reference))
    (projectsData : List (List String))
    (hown : OwnIds st.references) (hv : visit.Perm st.references.entries)
    (hp : ∀ row ∈ projectsData, 2 ≤ row.length) :
    ∃ st1, setReferences (saveReferences visit) projectsData = some st1 ∧
      (∀ k, st1.references.get k = (st.references.get k).map Reference.trimmed) ∧
      st1.references.keys.Perm st.references.keys ∧
      ((∀ e ∈ st.references.entries, ∀ a ∈ e.2.authors, TrimSpace a = a) →
        ∀ k, st1.references.get k = st.references.get k) := by
  obtain ⟨pm, hpm⟩ := loadProjects_total
    (visit.foldl (fun acc e => acc.set e.2.id e.2.trimmed) GoMap.empty) projectsData
    GoMap.empty hp
  have hget : ∀ k, (visit.foldl (fun acc e => acc.set e.2.id e.2.trimmed) GoMap.empty).get k
      = (st.references.get k).map Reference.trimmed := by
    intro k
    rw [get_foldl_set visit _ k (fun e he => hown e (hv.subset he))
      ((hv.map Prod.fst).nodup_iff.2 st.references.nodup), find_perm _ _ hv st.references.nodup]
    unfold GoMap.get
    cases GoMap.find st.references.entries k <;> simp [GoMap.find]
  refine ⟨⟨pm, _⟩, ?_, hget, ?_, ?_⟩
  · simp [setReferences, loadReferences_saved, hpm]
  · refine (List.perm_ext_iff_of_nodup (GoMap.nodup _) (GoMap.nodup _)).2 (fun k => ?_)
    show k ∈ GoMap.keys _ ↔ k ∈ GoMap.keys _
    rw [GoMap.mem_keys_iff, GoMap.mem_keys_iff, hget]
    cases st.references.get k <;> simp
  · intro htrim k
    rw [hget]
    cases hk : st.references.get k with
    | none => rfl
    | some r =>
      have hmem := (GoMap.get_eq_some_iff _ _ _).1 hk
      have : r.authors.map TrimSpace = r.authors := by
        conv_rhs => rw [← List.map_id r.authors]
        exact List.map_congr_left (fun a ha => htrim _ hmem a ha)
      simp [Reference.trimmed, this]

/-- Instance of C4: the author " Ada" is reloaded as "Ada", before "B". -/
theorem save_load_references_witness :
    ∃ st1, setReferences
        (saveReferences [("X", ⟨"X", "article", "T", "1843", "", "", [" Ada", "B"], ""⟩)])
        [["P", "t", "X"]] = some st1 ∧
      st1.references.get "X"
        = some ⟨"X", "article", "T", "1843", "", "", ["Ada", "B"], ""⟩ := by
  obtain ⟨st1, h1, h2, -⟩ := save_load_references
    ⟨GoMap.empty, GoMap.empty.set "X" ⟨"X", "article", "T", "1843", "", "", [" Ada", "B"], ""⟩⟩
    [("X", ⟨"X", "article", "T", "1843", "", "", [" Ada", "B"], ""⟩)] [["P", "t", "X"]]
    (by decide) (List.Perm.refl _) (by decide)
  exact ⟨st1, h1, (h2 "X").trans (by decide)⟩

/-- C4 as stated fails: create a reference whose author is typed with a
leading space; the row saved for it is loaded back with the author trimmed,
so the reloaded record differs from the stored one. -/
theorem save_load_trims_authors :
    (newReference ⟨GoMap.empty, GoMap.empty⟩ ["T", "1843", "", "", "", " Ada", ""]).map
        (fun x => (decide (OwnIds x.2.1.references), (x.2.1.references.get "Ada1843").map Reference.authors,
          (setReferences (saveReferences x.2.1.references.entries) []).map
            (fun st1 => (st1.references.get "Ada1843").map Reference.authors)))
      = some (true, some [" Ada"], some (some ["Ada"])) := by
  decide

theorem GoMap.mem_keys_set {V : Type} (m : GoMap V) (k : String) (v : V) (k' : String) :
    k' ∈ (m.set k v).keys ↔ k' = k ∨ k' ∈ m.keys := by
  rw [GoMap.mem_keys_iff, GoMap.mem_keys_iff]
  by_cases h : k' = k <;> simp [GoMap.get_set, h]

theorem GoMap.mem_keys_del {V : Type} (m : GoMap V) (k k' : String) :
    k' ∈ (m.del k).keys ↔ k' ≠ k ∧ k' ∈ m.keys := by
  rw [GoMap.mem_keys_iff, GoMap.mem_keys_iff]
  by_cases h : k' = k <;> simp [GoMap.get_del, h]

theorem Project.mem_keys_setRef (p : Project) (k : String) (ref : Reference) (k' : String)
    (h : k' ∈ (p.setRef k ref).refs.keys) : k' = k ∨ k' ∈ p.refs.keys := by
  unfold Project.setRef Project.refs at *
  cases hp : p.references with
  | none => simp [hp, GoMap.empty, GoMap.keys] at h
  | some m => simpa [hp, GoMap.mem_keys_set] using h

theorem Project.mem_keys_delRef (p : Project) (k k' : String)
    (h : k' ∈ (p.delRef k).refs.keys) : k' ≠ k ∧ k' ∈ p.refs.keys := by
  unfold Project.delRef Project.refs at *
  cases hp : p.references with
  | none => simp [hp, GoMap.empty, GoMap.keys] at h
  | some m => simpa [hp, GoMap.mem_keys_del] using h

theorem linksResolve_iff (st : Store) :
    LinksResolve st ↔
      ∀ pid p, st.projects.get pid = some p → ∀ k ∈ p.refs.keys, k ∈ st.references.keys := by
  constructor
  · intro h pid p hp k hk
    exact h (pid, p) ((GoMap.get_eq_some_iff _ _ _).1 hp) k hk
  · intro h e he k hk
    exact h e.1 e.2 ((GoMap.get_eq_some_iff _ _ _).2 he) k hk

theorem linksResolve_linkReference (st st1 : Store) (pid k : String) (ref : Reference)
    (hinv : LinksResolve st) (hk : k ∈ st.references.keys)
    (h : linkReference st pid k ref = some st1) : LinksResolve st1 := by
  rw [linksResolve_iff] at *
  unfold linkReference at h
  cases hp : (st.project pid).references with
  | none => simp [hp] at h
  | some m =>
    simp only [hp, Option.some.injEq] at h
    subst h
    intro pid' p' hp' k' hk'
    simp only [GoMap.get_update] at hp'
    by_cases hpid : pid' = pid
    · rw [if_pos hpid] at hp'
      cases hq : st.projects.get pid' with
      | none => simp [hq] at hp'
      | some q =>
        simp only [hq, Option.map_some', Option.some.injEq] at hp'
        subst hp'
        rcases Project.mem_keys_setRef _ _ _ _ hk' with h1 | h1
        · exact h1 ▸ hk
        · exact hinv _ _ hq _ h1
    · rw [if_neg hpid] at hp'
      exact hinv _ _ hp' _ hk'

theorem linksResolve_unlinkReference (st : Store) (pid k : String)
    (hinv : LinksResolve st) : LinksResolve (unlinkReference st pid k) := by
  rw [linksResolve_iff] at *
  intro pid' p' hp' k' hk'
  simp only [unlinkReference, GoMap.get_update] at hp'
  by_cases hpid : pid' = pid
  · rw [if_pos hpid] at hp'
    cases hq : st.projects.get pid' with
    | none => simp [hq] at hp'
    | some q =>
      simp only [hq, Option.map_some', Option.some.injEq] at hp'
      subst hp'
      exact hinv _ _ hq _ (Project.mem_keys_delRef _ _ _ hk').2
  · rw [if_neg hpid] at hp'
    exact hinv _ _ hp' _ hk'

theorem linksResolve_deleteReference (st : Store) (r : String)
    (hinv : LinksResolve st) : LinksResolve (deleteReference st r) := by
  rw [linksResolve_iff] at *
  intro pid' p' hp' k' hk'
  simp only [deleteReference, GoMap.get_mapVals] at hp'
  cases hq : st.projects.get pid' with
  | none => simp [hq] at hp'
  | some q =>
    simp only [hq, Option.map_some', Option.some.injEq] at hp'
    subst hp'
    obtain ⟨hne, hmem⟩ := Project.mem_keys_delRef _ _ _ hk'
    exact (GoMap.mem_keys_del _ _ _).2 ⟨hne, hinv _ _ hq _ hmem⟩

theorem linksResolve_references (st : Store) (refs : GoMap Reference)
    (hinv : LinksResolve st) (hsub : ∀ k ∈ st.references.keys, k ∈ refs.keys) :
    LinksResolve { st with references := refs } := by
  intro e he k hk
  exact hsub k (hinv e he k hk)

theorem linksResolve_projects_set (st : Store) (pid : String) (p : Project)
    (hinv : LinksResolve st) (hp : ∀ k ∈ p.refs.keys, k ∈ st.references.keys) :
    LinksResolve { st with projects := st.projects.set pid p } := by
  rw [linksResolve_iff] at *
  intro pid' p' hp' k' hk'
  simp only [GoMap.get_set] at hp'
  by_cases hpid : pid' = pid
  · simp only [hpid, if_true, Option.some.injEq] at hp'
    subst hp'
    exact hp _ hk'
  · rw [if_neg hpid] at hp'
    exact hinv _ _ hp' _ hk'

theorem linksResolve_projects_del (st : Store) (pid : String)
    (hinv : LinksResolve st) : LinksResolve { st with projects := st.projects.del pid } := by
  rw [linksResolve_iff] at *
  intro pid' p' hp' k' hk'
  simp only [GoMap.get_del] at hp'
  by_cases hpid : pid' = pid
  · simp [hpid] at hp'
  · rw [if_neg hpid] at hp'
    exact hinv _ _ hp' _ hk'

theorem linksResolve_project (st : Store) (pid : String) (hinv : LinksResolve st) :
    ∀ k ∈ (st.project pid).refs.keys, k ∈ st.references.keys := by
  intro k hk
  unfold Store.project at hk
  cases hq : st.projects.get pid with
  | none => simp [hq, Project.zero, Project.refs, GoMap.empty, GoMap.keys] at hk
  | some q =>
    rw [hq] at hk
    exact (linksResolve_iff st).1 hinv _ _ hq _ hk

theorem linksResolve_editField (st : Store) (r : String) (f : Field) (v : String)
    (hinv : LinksResolve st) : LinksResolve (editField st r f v) :=
  linksResolve_references st _ hinv (fun _ hk => (GoMap.mem_keys_set _ _ _ _).2 (Or.inr hk))

theorem linksResolve_addAuthor (st : Store) (r a : String)
    (hinv : LinksResolve st) : LinksResolve (addAuthor st r a) :=
  linksResolve_references st _ hinv (fun _ hk => (GoMap.mem_keys_set _ _ _ _).2 (Or.inr hk))

theorem linksResolve_removeAuthor (st st1 : Store) (r : String) (i : Int)
    (hinv : LinksResolve st) (h : removeAuthor st r i = some st1) : LinksResolve st1 := by
  unfold removeAuthor at h
  by_cases hi : i < 0
  · simp [hi] at h
  · simp only [hi, if_false, Option.some.injEq] at h
    subst h
    exact linksResolve_references st _ hinv
      (fun _ hk => (GoMap.mem_keys_set _ _ _ _).2 (Or.inr hk))

theorem storeNewReference_spec (st st1 : Store) (title year month publisher url : String)
    (authors : List String) (ref : Reference)
    (h : storeNewReference st title year month publisher url authors = some (ref, st1)) :
    st1.projects = st.projects ∧ st1.references.get ref.id = some ref ∧
      (∀ k, k ≠ ref.id → st1.references.get k = st.references.get k) ∧
      ref.authors = authors ∧ authors ≠ [] := by
  unfold storeNewReference at h
  cases authors with
  | nil => simp at h
  | cons a as =>
    simp only [Option.some.injEq, Prod.mk.injEq] at h
    obtain ⟨hR, hst⟩ := h
    subst hst
    simp only [Store.reference, GoMap.get_set, if_true, Option.getD_some] at hR
    subst hR
    refine ⟨rfl, by simp [GoMap.get_set], ?_, rfl, by simp⟩
    intro k hk
    simp only [GoMap.get_set]
    rw [if_neg hk]

theorem linksResolve_storeNewReference (st st1 : Store) (title year month publisher url : String)
    (authors : List String) (ref : Reference) (hinv : LinksResolve st)
    (h : storeNewReference st title year month publisher url authors = some (ref, st1)) :
    LinksResolve st1 ∧ ref.id ∈ st1.references.keys := by
  obtain ⟨hp, hg, hne, -, -⟩ := storeNewReference_spec _ _ _ _ _ _ _ _ _ h
  refine ⟨?_, (GoMap.mem_keys_iff _ _).2 ⟨_, hg⟩⟩
  intro e he k hk
  rw [hp] at he
  have := hinv e he k hk
  rw [GoMap.mem_keys_iff] at this ⊢
  by_cases hkid : k = ref.id
  · exact ⟨ref, hkid ▸ hg⟩
  · rw [hne k hkid]; exact this

theorem linksResolve_createProject (st : Store) (id title : String)
    (hinv : LinksResolve st) : LinksResolve (createProject st id title) :=
  linksResolve_projects_set st _ _ hinv (by simp [Project.refs, GoMap.empty, GoMap.keys])

theorem linksResolve_editProjectTitle (st : Store) (pid title : String)
    (hinv : LinksResolve st) : LinksResolve (editProjectTitle st pid title) :=
  linksResolve_projects_set st _ _ hinv (linksResolve_project st pid hinv)

theorem linksResolve_renameProject (st : Store) (pid newId : String)
    (hinv : LinksResolve st) : LinksResolve (renameProject st pid newId) := by
  have h1 := linksResolve_projects_set st newId { st.project pid with id := newId } hinv
    (linksResolve_project st pid hinv)
  exact linksResolve_projects_del _ pid h1

theorem linksResolve_deleteProject (st : Store) (pid : String)
    (hinv : LinksResolve st) : LinksResolve (deleteProject st pid) :=
  linksResolve_projects_del _ _ hinv

theorem linksResolve_step (s s1 : Session) (input : String) (out : List String)
    (hinv : LinksResolve s.store) (h : step s input = .running out s1) :
    LinksResolve s1.store := by
  obtain ⟨st, ctl, stack⟩ := s
  simp only at hinv
  cases ctl <;> simp only [step, enter, unwind] at h
  case addReference pid =>
    split_ifs at h with h0 h1 h2 h3
    any_goals (cases h; exact hinv)
    split at h
    · cases h
    · rename_i st1 hl
      cases h
      exact linksResolve_linkReference _ _ _ _ _ hinv ((GoMap.contains_iff _ _).1 h2) hl
  case newReferenceAuthor pid title year month publisher url authors =>
    split_ifs at h with h0 h1
    any_goals (cases h; exact hinv)
    split at h
    · cases h
    · rename_i ref st1 hs
      obtain ⟨hi1, hk⟩ := linksResolve_storeNewReference _ _ _ _ _ _ _ _ _ hinv hs
      split at h
      · cases h
      · rename_i st2 hl
        cases h
        exact linksResolve_linkReference _ _ _ _ _ hi1 hk hl
  case editReferenceRemoveAuthor r =>
    split_ifs at h with h0
    · cases h; exact hinv
    · split at h
      · split_ifs at h with h1
        · split at h
          · cases h
          · rename_i st1 hr
            cases h
            exact linksResolve_removeAuthor _ _ _ _ hinv hr
        · cases h; exact hinv
      · cases h; exact hinv
  case editReferenceAuthors r =>
    split_ifs at h
    any_goals (cases h; exact hinv)
    cases stack with
    | nil => cases h
    | cons a as => cases h; exact hinv
  all_goals (try split_ifs at h)
  all_goals
    cases h
    first
      | exact hinv
      | exact linksResolve_unlinkReference _ _ _ hinv
      | exact linksResolve_deleteReference _ _ hinv
      | exact linksResolve_editField _ _ _ _ hinv
      | exact linksResolve_addAuthor _ _ _ hinv
      | exact linksResolve_createProject _ _ _ hinv
      | exact linksResolve_editProjectTitle _ _ _ hinv
      | exact linksResolve_renameProject _ _ _ hinv
      | exact linksResolve_deleteProject _ _ hinv

theorem loadReferences_keys (rows : List (List String)) (m m1 : GoMap Reference)
    (h : loadReferences m rows = some m1) (k : String)
    (hk : k ∈ m.keys ∨ ∃ r ∈ rows, r.head? = some k) : k ∈ m1.keys := by
  induction rows generalizing m with
  | nil =>
    simp only [loadReferences, Option.some.injEq] at h
    subst h
    simpa using hk
  | cons row rows ih =>
    match row, h with
    | id :: reftype :: title :: year :: month :: url :: publisher :: rest, h =>
      simp only [loadReferences] at h
      refine ih _ h ?_
      rcases hk with hk | ⟨r, hr, hrk⟩
      · exact Or.inl ((GoMap.mem_keys_set _ _ _ _).2 (Or.inr hk))
      · rcases List.mem_cons.1 hr with rfl | hr
        · simp only [List.head?_cons, Option.some.injEq] at hrk
          exact Or.inl ((GoMap.mem_keys_set _ _ _ _).2 (Or.inl hrk.symm))
        · exact Or.inr ⟨r, hr, hrk⟩

theorem linkLoaded_keys (references : GoMap Reference) (ids : List String)
    (m : GoMap Reference) (k : String) (hk : k ∈ (linkLoaded references m ids).keys) :
    k ∈ m.keys ∨ k ∈ ids := by
  induction ids generalizing m with
  | nil => exact Or.inl hk
  | cons r rs ih =>
    rcases ih _ hk with h | h
    · rcases (GoMap.mem_keys_set _ _ _ _).1 h with h | h
      · exact Or.inr (h ▸ List.mem_cons_self _ _)
      · exact Or.inl h
    · exact Or.inr (List.mem_cons_of_mem _ h)

theorem loadProjects_linksResolve (refs : GoMap Reference) (rows : List (List String))
    (m pm : GoMap Project) (h : loadProjects refs m rows = some pm)
    (hm : LinksResolve ⟨m, refs⟩) (hrows : ∀ row ∈ rows, ∀ id ∈ row.drop 2, id ∈ refs.keys) :
    LinksResolve ⟨pm, refs⟩ := by
  induction rows generalizing m with
  | nil =>
    simp only [loadProjects, Option.some.injEq] at h
    subst h
    exact hm
  | cons row rows ih =>
    match row, h, hrows with
    | id :: title :: refIds, h, hrows =>
      simp only [loadProjects] at h
      refine ih _ h ?_ (fun r hr => hrows r (List.mem_cons_of_mem _ hr))
      refine linksResolve_projects_set ⟨m, refs⟩ _ _ hm ?_
      intro k hk
      rcases linkLoaded_keys refs refIds GoMap.empty k hk with h0 | h0
      · simp [GoMap.empty, GoMap.keys] at h0
      · exact hrows _ (List.mem_cons_self _ _) k (by simpa using h0)

theorem setReferences_linksResolve (referencesData projectsData : List (List String))
    (st : Store) (h : setReferences referencesData projectsData = some st)
    (hlinks : ∀ row ∈ projectsData, ∀ id ∈ row.drop 2,
      ∃ r ∈ referencesData, r.head? = some id) : LinksResolve st := by
  unfold setReferences at h
  cases hr : loadReferences GoMap.empty referencesData with
  | none => simp [hr] at h
  | some refs =>
    cases hp : loadProjects refs GoMap.empty projectsData with
    | none => simp [hr, hp] at h
    | some projs =>
      simp only [hr, hp, Option.some.injEq] at h
      subst h
      refine loadProjects_linksResolve refs projectsData _ _ hp ?_ ?_
      · intro e he
        simp [GoMap.empty] at he
      · intro row hrow id hid
        exact loadReferences_keys _ _ _ hr id (Or.inr (hlinks row hrow id hid))

/-- C2 as the code has it: when every reference id named by a row of the
projects table is the id of a row of the references table, then in every
session reachable from the load by any input lines, every key of every
project's map is a key of the global map. -/
theorem links_resolve_reachable (referencesData projectsData : List (List String))
    (hlinks : ∀ row ∈ projectsData, ∀ id ∈ row.drop 2,
      ∃ r ∈ referencesData, r.head? = some id)
    (s : Session) (hs : Reachable referencesData projectsData s) : LinksResolve s.store := by
  induction hs with
  | start st h => exact setReferences_linksResolve _ _ st h hlinks
  | next s s1 input out _ h ih => exact linksResolve_step s s1 input out ih h

/-- Instance of C2: consistent tables, then reference "r" is deleted while linked. -/
theorem links_resolve_reachable_witness :
    ∃ st, setReferences [["r", "article", "T", "2000", "", "", "p", "A"]] [["P", "t", "r"]]
        = some st ∧ LinksResolve (deleteReference st "r") :=
  ⟨_, rfl, links_resolve_reachable [["r", "article", "T", "2000", "", "", "p", "A"]]
    [["P", "t", "r"]] (by decide) ⟨_, .deleteReferenceDone, []⟩
    (Reachable.next ⟨_, .deleteReference "r", []⟩ _ "y" _
      (Reachable.next ⟨_, .referenceMenu "r", []⟩ _ "3" _
        (Reachable.next ⟨_, .selectReference, []⟩ _ "r" _
          (Reachable.next _ _ "2" _ (Reachable.start _ rfl) rfl) rfl) rfl) rfl)⟩

/-- C2 as stated fails: a projects table may name an id the references table
lacks; the project loaded from it holds a key that the global map has not. -/
theorem links_unresolved_after_load :
    ∃ st, Reachable [] [["P", "t", "ghost"]] ⟨st, .menu, []⟩ ∧ ¬ LinksResolve st :=
  ⟨_, Reachable.start _ rfl, by decide⟩

theorem authorsNonEmpty_iff (st : Store) :
    AuthorsNonEmpty st ↔ ∀ k r, st.references.get k = some r → r.authors ≠ [] := by
  constructor
  · intro h k r hk
    exact h (k, r) ((GoMap.get_eq_some_iff _ _ _).1 hk)
  · intro h e he
    exact h e.1 e.2 ((GoMap.get_eq_some_iff _ _ _).2 he)

theorem authorsNonEmpty_set (st : Store) (k : String) (r : Reference)
    (hinv : AuthorsNonEmpty st) (hr : r.authors ≠ []) :
    AuthorsNonEmpty { st with references := st.references.set k r } := by
  rw [authorsNonEmpty_iff] at *
  intro k' r' h
  simp only [GoMap.get_set] at h
  by_cases hk : k' = k
  · simp only [hk, if_true, Option.some.injEq] at h
    exact h ▸ hr
  · rw [if_neg hk] at h
    exact hinv _ _ h

theorem authors_of_mem (st : Store) (r : String) (hinv : AuthorsNonEmpty st)
    (hr : r ∈ st.references.keys) : (st.reference r).authors ≠ [] := by
  obtain ⟨v, hv⟩ := (GoMap.mem_keys_iff _ _).1 hr
  simp only [Store.reference, hv, Option.getD_some]
  exact (authorsNonEmpty_iff st).1 hinv _ _ hv

theorem authorsNonEmpty_editField (st : Store) (r : String) (f : Field) (v : String)
    (hinv : AuthorsNonEmpty st) (hr : r ∈ st.references.keys) :
    AuthorsNonEmpty (editField st r f v) := by
  refine authorsNonEmpty_set st _ _ hinv ?_
  have := authors_of_mem st r hinv hr
  cases f <;> exact this

theorem authorsNonEmpty_addAuthor (st : Store) (r a : String) (hinv : AuthorsNonEmpty st) :
    AuthorsNonEmpty (addAuthor st r a) :=
  authorsNonEmpty_set st _ _ hinv (by simp)

theorem authorsNonEmpty_deleteReference (st : Store) (r : String) (hinv : AuthorsNonEmpty st) :
    AuthorsNonEmpty (deleteReference st r) := by
  rw [authorsNonEmpty_iff] at *
  intro k' r' h
  simp only [deleteReference, GoMap.get_del] at h
  by_cases hk : k' = r
  · simp [hk] at h
  · rw [if_neg hk] at h
    exact hinv _ _ h

theorem linkReference_references (st st1 : Store) (pid k : String) (ref : Reference)
    (h : linkReference st pid k ref = some st1) : st1.references = st.references := by
  unfold linkReference at h
  cases hp : (st.project pid).references with
  | none => simp [hp] at h
  | some m =>
    simp only [hp, Option.some.injEq] at h
    subst h
    rfl

theorem authorsNonEmpty_storeNewReference (st st1 : Store)
    (title year month publisher url : String) (authors : List String) (ref : Reference)
    (hinv : AuthorsNonEmpty st)
    (h : storeNewReference st title year month publisher url authors = some (ref, st1)) :
    AuthorsNonEmpty st1 := by
  obtain ⟨-, hg, hne, ha, hn⟩ := storeNewReference_spec _ _ _ _ _ _ _ _ _ h
  rw [authorsNonEmpty_iff] at *
  intro k r hk
  by_cases hkid : k = ref.id
  · rw [hkid, hg] at hk
    simp only [Option.some.injEq] at hk
    exact hk ▸ ha ▸ hn
  · rw [hne k hkid] at hk
    exact hinv _ _ hk

theorem mem_keys_editField (st : Store) (r : String) (f : Field) (v : String) :
    r ∈ (editField st r f v).references.keys :=
  (GoMap.mem_keys_set _ _ _ _).2 (Or.inl rfl)

theorem mem_keys_addAuthor (st : Store) (r a : String) :
    r ∈ (addAuthor st r a).references.keys :=
  (GoMap.mem_keys_set _ _ _ _).2 (Or.inl rfl)

theorem mem_keys_removeAuthor (st st1 : Store) (r : String) (i : Int)
    (h : removeAuthor st r i = some st1) : r ∈ st1.references.keys := by
  unfold removeAuthor at h
  by_cases hi : i < 0
  · simp [hi] at h
  · simp only [hi, if_false, Option.some.injEq] at h
    subst h
    exact (GoMap.mem_keys_set _ _ _ _).2 (Or.inl rfl)

theorem authorsNonEmpty_removeAuthor (st st1 : Store) (r : String) (i : Int)
    (hinv : AuthorsNonEmpty st) (h : removeAuthor st r i = some st1)
    (hlen : 2 ≤ (st.reference r).authors.length) : AuthorsNonEmpty st1 := by
  unfold removeAuthor at h
  by_cases hi : i < 0
  · simp [hi] at h
  · simp only [hi, if_false, Option.some.injEq] at h
    subst h
    refine authorsNonEmpty_set st _ _ hinv ?_
    intro heq
    have hl := congrArg List.length heq
    simp only [List.length_append, List.length_take, List.length_drop, List.length_nil] at hl
    omega

theorem ctlResolves_step (s s1 : Session) (input : String) (out : List String)
    (hinv : CtlResolves s) (h : step s input = .running out s1) : CtlResolves s1 := by
  obtain ⟨st, ctl, stack⟩ := s
  cases ctl <;> simp only [step, enter, unwind] at h
  case selectReference =>
    split_ifs at h with h0 h1
    · cases h; intro r hr; cases hr
    · cases h; intro r hr; cases hr; exact (GoMap.contains_iff _ _).1 h1
    · cases h; intro r hr; cases hr
  case addReference pid =>
    split_ifs at h with h0 h1 h2 h3
    any_goals (cases h; intro r hr; cases hr)
    split at h
    · cases h
    · cases h; intro r hr; cases hr
  case newReferenceAuthor pid title year month publisher url authors =>
    split_ifs at h with h0 h1
    any_goals (cases h; intro r hr; cases hr)
    split at h
    · cases h
    · split at h
      · cases h
      · cases h; intro r hr; cases hr
  case editReferenceRemoveAuthor r0 =>
    have h0 := hinv r0 rfl
    split_ifs at h with h1
    · cases h; intro r hr; cases hr; exact h0
    · split at h
      · split_ifs at h with h2
        · split at h
          · cases h
          · rename_i st1 hrm
            cases h; intro r hr; cases hr
            exact mem_keys_removeAuthor _ _ _ _ hrm
        · cases h; intro r hr; cases hr; exact h0
      · cases h; intro r hr; cases hr; exact h0
  case editReferenceAuthors r0 =>
    have h0 := hinv r0 rfl
    split_ifs at h
    any_goals (cases h; intro r hr; cases hr; exact h0)
    cases stack with
    | nil => cases h
    | cons a as => cases h; intro r hr; cases hr
  all_goals (try split_ifs at h)
  all_goals
    cases h
    intro r hr
    first
      | cases hr; done
      | (cases hr
         first
          | exact hinv _ rfl
          | exact mem_keys_editField _ _ _ _
          | exact mem_keys_addAuthor _ _ _)

theorem authorsNonEmpty_step (s s1 : Session) (input : String) (out : List String)
    (hctl : CtlResolves s) (hinv : AuthorsNonEmpty s.store)
    (hk : removesOnlyAuthor s input = false) (h : step s input = .running out s1) :
    AuthorsNonEmpty s1.store := by
  obtain ⟨st, ctl, stack⟩ := s
  simp only at hinv
  cases ctl <;> simp only [step, enter, unwind] at h
  case addReference pid =>
    split_ifs at h with h0 h1 h2 h3
    any_goals (cases h; exact hinv)
    split at h
    · cases h
    · rename_i st1 hl
      cases h
      show AuthorsNonEmpty st1
      unfold AuthorsNonEmpty
      rw [linkReference_references _ _ _ _ _ hl]
      exact hinv
  case newReferenceAuthor pid title year month publisher url authors =>
    split_ifs at h with h0 h1
    any_goals (cases h; exact hinv)
    split at h
    · cases h
    · rename_i ref st1 hs
      have hi1 := authorsNonEmpty_storeNewReference _ _ _ _ _ _ _ _ _ hinv hs
      split at h
      · cases h
      · rename_i st2 hl
        cases h
        show AuthorsNonEmpty st2
        unfold AuthorsNonEmpty
        rw [linkReference_references _ _ _ _ _ hl]
        exact hi1
  case editReferenceRemoveAuthor r =>
    simp only [removesOnlyAuthor] at hk
    split_ifs at h with h0
    · cases h; exact hinv
    · split at h
      · rename_i i hi
        split_ifs at h with h1
        · split at h
          · cases h
          · rename_i st1 hrm
            cases h
            refine authorsNonEmpty_removeAuthor _ _ _ _ hinv hrm ?_
            by_contra hlen
            have hle : (st.reference r).authors.length ≤ 1 := by omega
            simp [h0, hi, h1, hle] at hk
        · cases h; exact hinv
      · cases h; exact hinv
  case editReferenceAuthors r =>
    split_ifs at h
    any_goals (cases h; exact hinv)
    cases stack with
    | nil => cases h
    | cons a as => cases h; exact hinv
  case editReferenceField r f =>
    cases h
    exact authorsNonEmpty_editField _ _ _ _ hinv (hctl r rfl)
  all_goals (try split_ifs at h)
  all_goals
    cases h
    first
      | exact hinv
      | exact authorsNonEmpty_deleteReference _ _ hinv
      | exact authorsNonEmpty_addAuthor _ _ _ hinv

theorem loadReferences_authors (rows : List (List String)) (m m1 : GoMap Reference)
    (h : loadReferences m rows = some m1) (hrows : ∀ row ∈ rows, 8 ≤ row.length)
    (refs0 : GoMap Project) (hm : AuthorsNonEmpty ⟨refs0, m⟩) : AuthorsNonEmpty ⟨refs0, m1⟩ := by
  induction rows generalizing m with
  | nil =>
    simp only [loadReferences, Option.some.injEq] at h
    subst h
    exact hm
  | cons row rows ih =>
    have hlen := hrows row (List.mem_cons_self _ _)
    match row, h, hlen with
    | id :: reftype :: title :: year :: month :: url :: publisher :: a :: rest, h, _ =>
      simp only [loadReferences] at h
      refine ih _ h (fun r hr => hrows r (List.mem_cons_of_mem _ hr)) ?_
      exact authorsNonEmpty_set ⟨refs0, m⟩ _ _ hm (by simp)

theorem setReferences_authors (referencesData projectsData : List (List String))
    (st : Store) (h : setReferences referencesData projectsData = some st)
    (hrows : ∀ row ∈ referencesData, 8 ≤ row.length) : AuthorsNonEmpty st := by
  unfold setReferences at h
  cases hr : loadReferences GoMap.empty referencesData with
  | none => simp [hr] at h
  | some refs =>
    cases hp : loadProjects refs GoMap.empty projectsData with
    | none => simp [hr, hp] at h
    | some projs =>
      simp only [hr, hp, Option.some.injEq] at h
      subst h
      refine loadReferences_authors _ _ _ hr hrows projs ?_
      intro e he
      simp [GoMap.empty] at he

/-- C6 as the code has it: when every row of the references table has at
least one author column, then in every session reachable from the load by
input lines none of which deletes the only author of a reference (creating
references, editing fields, adding authors, removing one of several authors,
deleting references and every project operation included), every reference
of the global map has a non-empty author list. -/
theorem authors_nonempty_reachable (referencesData projectsData : List (List String))
    (hrows : ∀ row ∈ referencesData, 8 ≤ row.length)
    (s : Session) (hs : ReachableKeepingAuthors referencesData projectsData s) :
    AuthorsNonEmpty s.store := by
  have key : CtlResolves s ∧ AuthorsNonEmpty s.store := by
    induction hs with
    | start st h =>
      exact ⟨fun r hr => (by cases hr), setReferences_authors _ _ st h hrows⟩
    | next s s1 input out _ hk h ih =>
      exact ⟨ctlResolves_step s s1 input out ih.1 h,
        authorsNonEmpty_step s s1 input out ih.1 ih.2 hk h⟩
  exact key.2

/-- Instance of C6: author "B" is added to reference "r", then author 0 of the
two is removed. -/
theorem authors_nonempty_reachable_witness :
    ∃ st st1, setReferences [["r", "article", "T", "2000", "", "", "p", "A"]] [] = some st ∧
      removeAuthor (addAuthor st "r" "B") "r" 0 = some st1 ∧ AuthorsNonEmpty st1 :=
  ⟨_, _, rfl, rfl,
    authors_nonempty_reachable [["r", "article", "T", "2000", "", "", "p", "A"]] []
    (by decide) ⟨_, .editReferencePause "r", []⟩
    (ReachableKeepingAuthors.next ⟨_, .editReferenceRemoveAuthor "r", []⟩ _ "0" _
      (ReachableKeepingAuthors.next ⟨_, .editReferenceAuthors "r", []⟩ _ "2" _
        (ReachableKeepingAuthors.next ⟨_, .editReference "r", []⟩ _ "5" _
          (ReachableKeepingAuthors.next ⟨_, .editReferencePause "r", []⟩ _ "" _
            (ReachableKeepingAuthors.next ⟨_, .editReferenceAddAuthor "r", []⟩ _ "B" _
              (ReachableKeepingAuthors.next ⟨_, .editReferenceAuthors "r", []⟩ _ "1" _
                (ReachableKeepingAuthors.next ⟨_, .editReference "r", []⟩ _ "5" _
                  (ReachableKeepingAuthors.next ⟨_, .referenceMenu "r", []⟩ _ "2" _
                    (ReachableKeepingAuthors.next ⟨_, .selectReference, []⟩ _ "r" _
                      (ReachableKeepingAuthors.next _ _ "2" _
                        (ReachableKeepingAuthors.start _ rfl)
                        rfl rfl) rfl rfl) rfl rfl) rfl rfl) rfl rfl) rfl rfl) rfl rfl)
          rfl rfl) rfl rfl) rfl rfl)⟩

/-- C6 as stated fails twice: a row of the references table without author
columns loads a reference with no author, and the remove-author screen
deletes the only author of a reference without any check. -/
theorem authors_can_be_empty :
    ((main [["r", "article", "T", "2000", "", "", "p"]] [] []).session).map
        (fun s => (s.store.references.get "r").map Reference.authors) = some (some []) ∧
    ((main [["r", "article", "T", "2000", "", "", "p", "A"]] []
        ["2", "r", "2", "5", "2", "0"]).session).map
        (fun s => (s.store.references.get "r").map Reference.authors) = some (some []) := by
  constructor <;> decide

theorem reachable_run (referencesData projectsData : List (List String)) (inputs : List String)
    (s s1 : Session) (out : List String) (hs : Reachable referencesData projectsData s)
    (h : run s inputs = .running out s1) : Reachable referencesData projectsData s1 := by
  induction inputs generalizing s out with
  | nil =>
    simp only [run, Outcome.running.injEq] at h
    exact h.2 ▸ hs
  | cons line rest ih =>
    simp only [run] at h
    cases hstep : step s line with
    | running o s2 =>
      rw [hstep] at h
      simp only at h
      cases hrun : run s2 rest with
      | running o2 s3 =>
        rw [hrun] at h
        simp only [Outcome.after, Outcome.running.injEq] at h
        obtain ⟨-, rfl⟩ := h
        exact ih s2 o2 (Reachable.next s s2 line o hs hstep) hrun
      | exited o2 => rw [hrun] at h; cases h
      | returned o2 => rw [hrun] at h; cases h
      | panicked o2 => rw [hrun] at h; cases h
    | exited o => rw [hstep] at h; cases h
    | returned o => rw [hstep] at h; cases h
    | panicked o => rw [hstep] at h; cases h

theorem reachable_main (referencesData projectsData : List (List String)) (inputs : List String)
    (s : Session) (out : List String)
    (h : main referencesData projectsData inputs = .running out s) :
    Reachable referencesData projectsData s := by
  unfold main at h
  cases hload : setReferences referencesData projectsData with
  | none => rw [hload] at h; cases h
  | some st =>
    rw [hload] at h
    simp only at h
    cases hrun : run ⟨st, .menu, []⟩ inputs with
    | running o2 s3 =>
      rw [hrun] at h
      simp only [Outcome.after, Outcome.running.injEq] at h
      obtain ⟨-, rfl⟩ := h
      exact reachable_run _ _ inputs _ _ o2 (Reachable.start st hload) hrun
    | exited o2 => rw [hrun] at h; cases h
    | returned o2 => rw [hrun] at h; cases h
    | panicked o2 => rw [hrun] at h; cases h

theorem session_after (out : List String) (o : Outcome) : (o.after out).session = o.session := by
  cases o <;> rfl

theorem readAuthors_rest (lines authors result rest : List String)
    (h : readAuthors authors lines = some (result, rest)) :
    rest.length ≤ lines.length ∧ (rest.length = lines.length → lines = []) := by
  induction lines generalizing authors with
  | nil =>
    by_cases h0 : authors = []
    · simp [readAuthors, h0] at h
    · simp only [readAuthors, h0, if_false, Option.some.injEq, Prod.mk.injEq] at h
      simp [← h.2]
  | cons a tail ih =>
    unfold readAuthors at h
    by_cases h1 : authors = [] ∧ a = ""
    · rw [if_pos h1] at h
      have := ih _ h
      simp only [List.length_cons]
      exact ⟨by omega, fun hc => by omega⟩
    · rw [if_neg h1] at h
      by_cases h2 : a = ""
      · rw [if_pos h2] at h
        simp only [Option.some.injEq, Prod.mk.injEq] at h
        simp [← h.2]
      · rw [if_neg h2] at h
        have := ih _ h
        simp only [List.length_cons]
        exact ⟨by omega, fun hc => by omega⟩

/-- The author prompts of the session are the loop `readAuthors`: when the
loop ends on the empty line that follows the lines `consumed`, feeding those
lines to the session stores and links the new reference as `newReference`
and `addReference` do. -/
theorem run_newReferenceAuthor (st : Store) (projectId title year month publisher url : String)
    (stack : List String) (consumed rest authors result : List String)
    (h : readAuthors authors (consumed ++ "" :: rest) = some (result, rest)) :
    (run ⟨st, .newReferenceAuthor projectId title year month publisher url authors, stack⟩
        (consumed ++ [""])).session
      = match storeNewReference st title year month publisher url result with
        | none => none
        | some (ref, st1) =>
            (linkReference st1 projectId ref.id ref).map
              (fun st2 => ⟨st2, .projectMenu projectId, stack⟩) := by
  induction consumed generalizing authors with
  | nil =>
    simp only [List.nil_append] at h ⊢
    unfold readAuthors at h
    by_cases h0 : authors = []
    · simp only [h0, and_self, if_true] at h
      have hr := (readAuthors_rest _ _ _ _ h).2 rfl
      subst hr
      simp [readAuthors] at h
    · simp only [h0, false_and, if_false, if_true, Option.some.injEq, Prod.mk.injEq,
        and_true] at h
      subst h
      simp only [run, step, h0, false_and, if_false, if_true]
      cases hs : storeNewReference st title year month publisher url authors with
      | none => rfl
      | some p =>
        obtain ⟨ref, st1⟩ := p
        simp only
        cases hlk : linkReference st1 projectId ref.id ref with
        | none => rfl
        | some st2 => simp [enter, Outcome.after, Outcome.session, run]
  | cons c cs ih =>
    simp only [List.cons_append] at h ⊢
    unfold readAuthors at h
    by_cases h1 : authors = [] ∧ c = ""
    · rw [if_pos h1] at h
      simp only [run, step, h1, and_self, if_true, session_after]
      have := ih _ h
      rw [h1.1] at this
      exact this
    · rw [if_neg h1] at h
      by_cases h2 : c = ""
      · rw [if_pos h2] at h
        simp only [Option.some.injEq, Prod.mk.injEq] at h
        have := congrArg List.length h.2
        simp only [List.length_append, List.length_cons] at this
        omega
      · rw [if_neg h2] at h
        have h12 : ¬ (authors = [] ∧ c = "") := h1
        simp only [run, step, h2, and_false, if_false, session_after]
        exact ih _ h

/-- The creation flow of the session is `newReference`: on the five field
lines followed by author lines that end the loop on an empty line, the
session reaches `projectMenu` with the store `newReference` computes, the
returned reference linked into the project. -/
theorem run_newReference (st : Store) (projectId : String) (stack : List String)
    (title year month publisher url : String) (consumed rest : List String)
    (ref : Reference) (st1 : Store)
    (h : newReference st (title :: year :: month :: publisher :: url :: consumed ++ "" :: rest)
      = some (ref, st1, rest)) :
    (run ⟨st, .newReferenceTitle projectId, stack⟩
        (title :: year :: month :: publisher :: url :: consumed ++ [""])).session
      = (linkReference st1 projectId ref.id ref).map
          (fun st2 => ⟨st2, .projectMenu projectId, stack⟩) := by
  simp only [newReference, getInput, List.cons_append] at h
  cases hra : readAuthors [] (consumed ++ "" :: rest) with
  | none => simp [hra] at h
  | some p =>
    obtain ⟨result, rest1⟩ := p
    rw [hra] at h
    simp only at h
    cases hs : storeNewReference st title year month publisher url result with
    | none => simp [hs] at h
    | some q =>
      obtain ⟨ref1, st2⟩ := q
      rw [hs] at h
      simp only [Option.some.injEq, Prod.mk.injEq] at h
      obtain ⟨rfl, rfl, rfl⟩ := h
      have := run_newReferenceAuthor st projectId title year month publisher url stack
        consumed rest1 [] result hra
      rw [hs] at this
      simp only [List.cons_append, run, step, session_after]
      exact this

theorem ownIds_iff (m : GoMap Reference) :
    OwnIds m ↔ ∀ k r, m.get k = some r → r.id = k := by
  constructor
  · intro h k r hk
    exact h (k, r) ((GoMap.get_eq_some_iff _ _ _).1 hk)
  · intro h e he
    exact h e.1 e.2 ((GoMap.get_eq_some_iff _ _ _).2 he)

theorem ownIds_empty : OwnIds GoMap.empty := by
  intro e he
  simp [GoMap.empty] at he

theorem ownIds_set (m : GoMap Reference) (k : String) (r : Reference)
    (h : OwnIds m) (hr : r.id = k) : OwnIds (m.set k r) := by
  rw [ownIds_iff] at *
  intro k' r' hk
  simp only [GoMap.get_set] at hk
  by_cases hkk : k' = k
  · simp only [hkk, if_true, Option.some.injEq] at hk
    rw [hkk, ← hk]; exact hr
  · rw [if_neg hkk] at hk
    exact h _ _ hk

theorem ownIds_del (m : GoMap Reference) (k : String) (h : OwnIds m) : OwnIds (m.del k) := by
  rw [ownIds_iff] at *
  intro k' r' hk
  simp only [GoMap.get_del] at hk
  by_cases hkk : k' = k
  · simp [hkk] at hk
  · rw [if_neg hkk] at hk
    exact h _ _ hk

theorem reference_id (st : Store) (k : String) (h : OwnIds st.references)
    (hk : k ∈ st.references.keys) : (st.reference k).id = k := by
  obtain ⟨v, hv⟩ := (GoMap.mem_keys_iff _ _).1 hk
  simp only [Store.reference, hv, Option.getD_some]
  exact (ownIds_iff _).1 h _ _ hv

theorem ownIds_editField (st : Store) (r : String) (f : Field) (v : String)
    (h : OwnIds st.references) (hr : r ∈ st.references.keys) :
    OwnIds (editField st r f v).references := by
  refine ownIds_set _ _ _ h ?_
  have := reference_id st r h hr
  cases f <;> exact this

theorem ownIds_addAuthor (st : Store) (r a : String)
    (h : OwnIds st.references) (hr : r ∈ st.references.keys) :
    OwnIds (addAuthor st r a).references :=
  ownIds_set _ _ _ h (reference_id st r h hr)

theorem ownIds_removeAuthor (st st1 : Store) (r : String) (i : Int)
    (h : OwnIds st.references) (hr : r ∈ st.references.keys)
    (hrm : removeAuthor st r i = some st1) : OwnIds st1.references := by
  unfold removeAuthor at hrm
  by_cases hi : i < 0
  · simp [hi] at hrm
  · simp only [hi, if_false, Option.some.injEq] at hrm
    subst hrm
    exact ownIds_set _ _ _ h (reference_id st r h hr)

theorem ownIds_storeNewReference (st st1 : Store) (title year month publisher url : String)
    (authors : List String) (ref : Reference) (h : OwnIds st.references)
    (hs : storeNewReference st title year month publisher url authors = some (ref, st1)) :
    OwnIds st1.references := by
  obtain ⟨-, hg, hne, -, -⟩ := storeNewReference_spec _ _ _ _ _ _ _ _ _ hs
  rw [ownIds_iff] at *
  intro k r hk
  by_cases hkid : k = ref.id
  · rw [hkid, hg] at hk
    simp only [Option.some.injEq] at hk
    rw [hkid, ← hk]
  · rw [hne k hkid] at hk
    exact h _ _ hk

theorem ownIds_step (s s1 : Session) (input : String) (out : List String)
    (hctl : CtlResolves s) (hinv : OwnIds s.store.references)
    (h : step s input = .running out s1) : OwnIds s1.store.references := by
  obtain ⟨st, ctl, stack⟩ := s
  simp only at hinv
  cases ctl <;> simp only [step, enter, unwind] at h
  case addReference pid =>
    split_ifs at h with h0 h1 h2 h3
    any_goals (cases h; exact hinv)
    split at h
    · cases h
    · rename_i st1 hl
      cases h
      show OwnIds st1.references
      rw [linkReference_references _ _ _ _ _ hl]
      exact hinv
  case newReferenceAuthor pid title year month publisher url authors =>
    split_ifs at h with h0 h1
    any_goals (cases h; exact hinv)
    split at h
    · cases h
    · rename_i ref st1 hs
      have hi1 := ownIds_storeNewReference _ _ _ _ _ _ _ _ _ hinv hs
      split at h
      · cases h
      · rename_i st2 hl
        cases h
        show OwnIds st2.references
        rw [linkReference_references _ _ _ _ _ hl]
        exact hi1
  case editReferenceRemoveAuthor r =>
    split_ifs at h with h0
    · cases h; exact hinv
    · split at h
      · split_ifs at h with h1
        · split at h
          · cases h
          · rename_i st1 hrm
            cases h
            exact ownIds_removeAuthor _ _ _ _ hinv (hctl r rfl) hrm
        · cases h; exact hinv
      · cases h; exact hinv
  case editReferenceAuthors r =>
    split_ifs at h
    any_goals (cases h; exact hinv)
    cases stack with
    | nil => cases h
    | cons a as => cases h; exact hinv
  case editReferenceField r f =>
    cases h
    exact ownIds_editField _ _ _ _ hinv (hctl r rfl)
  case editReferenceAddAuthor r =>
    cases h
    exact ownIds_addAuthor _ _ _ hinv (hctl r rfl)
  all_goals (try split_ifs at h)
  all_goals
    cases h
    first
      | exact hinv
      | exact ownIds_del _ _ hinv

theorem copiesOwnIds_iff (st : Store) :
    CopiesOwnIds st ↔ ∀ pid p, st.projects.get pid = some p → OwnIds p.refs := by
  constructor
  · intro h pid p hp
    exact h (pid, p) ((GoMap.get_eq_some_iff _ _ _).1 hp)
  · intro h e he
    exact h e.1 e.2 ((GoMap.get_eq_some_iff _ _ _).2 he)

theorem Project.ownIds_setRef (p : Project) (k : String) (ref : Reference)
    (h : OwnIds p.refs) (hr : ref.id = k) : OwnIds (p.setRef k ref).refs := by
  unfold Project.setRef Project.refs at *
  cases hp : p.references with
  | none => exact ownIds_empty
  | some m =>
    rw [hp] at h
    exact ownIds_set m k ref h hr

theorem Project.ownIds_delRef (p : Project) (k : String)
    (h : OwnIds p.refs) : OwnIds (p.delRef k).refs := by
  unfold Project.delRef Project.refs at *
  cases hp : p.references with
  | none => exact ownIds_empty
  | some m =>
    rw [hp] at h
    exact ownIds_del m k h

theorem copies_project (st : Store) (pid : String) (hinv : CopiesOwnIds st) :
    OwnIds (st.project pid).refs := by
  unfold Store.project
  cases hq : st.projects.get pid with
  | none => exact ownIds_empty
  | some q => exact (copiesOwnIds_iff st).1 hinv _ _ hq

theorem copies_linkReference (st st1 : Store) (pid k : String) (ref : Reference)
    (hinv : CopiesOwnIds st) (hr : ref.id = k)
    (h : linkReference st pid k ref = some st1) : CopiesOwnIds st1 := by
  rw [copiesOwnIds_iff] at *
  unfold linkReference at h
  cases hp : (st.project pid).references with
  | none => simp [hp] at h
  | some m =>
    simp only [hp, Option.some.injEq] at h
    subst h
    intro pid' p' hp'
    simp only [GoMap.get_update] at hp'
    by_cases hpid : pid' = pid
    · rw [if_pos hpid] at hp'
      cases hq : st.projects.get pid' with
      | none => simp [hq] at hp'
      | some q =>
        simp only [hq, Option.map_some', Option.some.injEq] at hp'
        subst hp'
        exact Project.ownIds_setRef _ _ _ (hinv _ _ hq) hr
    · rw [if_neg hpid] at hp'
      exact hinv _ _ hp'

theorem copies_unlinkReference (st : Store) (pid k : String)
    (hinv : CopiesOwnIds st) : CopiesOwnIds (unlinkReference st pid k) := by
  rw [copiesOwnIds_iff] at *
  intro pid' p' hp'
  simp only [unlinkReference, GoMap.get_update] at hp'
  by_cases hpid : pid' = pid
  · rw [if_pos hpid] at hp'
    cases hq : st.projects.get pid' with
    | none => simp [hq] at hp'
    | some q =>
      simp only [hq, Option.map_some', Option.some.injEq] at hp'
      subst hp'
      exact Project.ownIds_delRef _ _ (hinv _ _ hq)
  · rw [if_neg hpid] at hp'
    exact hinv _ _ hp'

theorem copies_deleteReference (st : Store) (r : String)
    (hinv : CopiesOwnIds st) : CopiesOwnIds (deleteReference st r) := by
  rw [copiesOwnIds_iff] at *
  intro pid' p' hp'
  simp only [deleteReference, GoMap.get_mapVals] at hp'
  cases hq : st.projects.get pid' with
  | none => simp [hq] at hp'
  | some q =>
    simp only [hq, Option.map_some', Option.some.injEq] at hp'
    subst hp'
    exact Project.ownIds_delRef _ _ (hinv _ _ hq)

theorem copies_references (st : Store) (refs : GoMap Reference) (hinv : CopiesOwnIds st) :
    CopiesOwnIds { st with references := refs } :=
  fun e he => hinv e he

theorem copies_projects_set (st : Store) (pid : String) (p : Project)
    (hinv : CopiesOwnIds st) (hp : OwnIds p.refs) :
    CopiesOwnIds { st with projects := st.projects.set pid p } := by
  rw [copiesOwnIds_iff] at *
  intro pid' p' hp'
  simp only [GoMap.get_set] at hp'
  by_cases hpid : pid' = pid
  · simp only [hpid, if_true, Option.some.injEq] at hp'
    subst hp'
    exact hp
  · rw [if_neg hpid] at hp'
    exact hinv _ _ hp'

theorem copies_projects_del (st : Store) (pid : String)
    (hinv : CopiesOwnIds st) : CopiesOwnIds { st with projects := st.projects.del pid } := by
  rw [copiesOwnIds_iff] at *
  intro pid' p' hp'
  simp only [GoMap.get_del] at hp'
  by_cases hpid : pid' = pid
  · simp [hpid] at hp'
  · rw [if_neg hpid] at hp'
    exact hinv _ _ hp'

theorem copies_removeAuthor (st st1 : Store) (r : String) (i : Int)
    (hinv : CopiesOwnIds st) (h : removeAuthor st r i = some st1) : CopiesOwnIds st1 := by
  unfold removeAuthor at h
  by_cases hi : i < 0
  · simp [hi] at h
  · simp only [hi, if_false, Option.some.injEq] at h
    subst h
    exact copies_references st _ hinv

theorem copies_storeNewReference (st st1 : Store) (title year month publisher url : String)
    (authors : List String) (ref : Reference) (hinv : CopiesOwnIds st)
    (h : storeNewReference st title year month publisher url authors = some (ref, st1)) :
    CopiesOwnIds st1 := by
  obtain ⟨hp, -, -, -, -⟩ := storeNewReference_spec _ _ _ _ _ _ _ _ _ h
  intro e he
  rw [hp] at he
  exact hinv e he

theorem copies_renameProject (st : Store) (pid newId : String)
    (hinv : CopiesOwnIds st) : CopiesOwnIds (renameProject st pid newId) := by
  have h1 := copies_projects_set st newId { st.project pid with id := newId } hinv
    (copies_project st pid hinv)
  exact copies_projects_del _ pid h1

theorem copiesOwnIds_step (s s1 : Session) (input : String) (out : List String)
    (hrefs : OwnIds s.store.references) (hinv : CopiesOwnIds s.store)
    (h : step s input = .running out s1) : CopiesOwnIds s1.store := by
  obtain ⟨st, ctl, stack⟩ := s
  simp only at hinv hrefs
  cases ctl <;> simp only [step, enter, unwind] at h
  case addReference pid =>
    split_ifs at h with h0 h1 h2 h3
    any_goals (cases h; exact hinv)
    split at h
    · cases h
    · rename_i st1 hl
      cases h
      exact copies_linkReference _ _ _ _ _ hinv
        (reference_id st input hrefs ((GoMap.contains_iff _ _).1 h2)) hl
  case newReferenceAuthor pid title year month publisher url authors =>
    split_ifs at h with h0 h1
    any_goals (cases h; exact hinv)
    split at h
    · cases h
    · rename_i ref st1 hs
      have hi1 := copies_storeNewReference _ _ _ _ _ _ _ _ _ hinv hs
      split at h
      · cases h
      · rename_i st2 hl
        cases h
        exact copies_linkReference _ _ _ _ _ hi1 rfl hl
  case editReferenceRemoveAuthor r =>
    split_ifs at h with h0
    · cases h; exact hinv
    · split at h
      · split_ifs at h with h1
        · split at h
          · cases h
          · rename_i st1 hrm
            cases h
            exact copies_removeAuthor _ _ _ _ hinv hrm
        · cases h; exact hinv
      · cases h; exact hinv
  case editReferenceAuthors r =>
    split_ifs at h
    any_goals (cases h; exact hinv)
    cases stack with
    | nil => cases h
    | cons a as => cases h; exact hinv
  all_goals (try split_ifs at h)
  all_goals
    cases h
    first
      | exact hinv
      | exact copies_unlinkReference _ _ _ hinv
      | exact copies_deleteReference _ _ hinv
      | exact copies_references _ _ hinv
      | exact copies_projects_set _ _ _ hinv ownIds_empty
      | exact copies_projects_set _ _ _ hinv (copies_project _ _ hinv)
      | exact copies_renameProject _ _ _ hinv
      | exact copies_projects_del _ _ hinv

theorem loadReferences_ownIds (rows : List (List String)) (m m1 : GoMap Reference)
    (h : loadReferences m rows = some m1) (hm : OwnIds m) : OwnIds m1 := by
  induction rows generalizing m with
  | nil =>
    simp only [loadReferences, Option.some.injEq] at h
    subst h
    exact hm
  | cons row rows ih =>
    match row, h with
    | id :: reftype :: title :: year :: month :: url :: publisher :: rest, h =>
      simp only [loadReferences] at h
      exact ih _ h (ownIds_set m _ _ hm rfl)

theorem linkLoaded_ownIds (refs : GoMap Reference) (ids : List String) (m : GoMap Reference)
    (hrefs : OwnIds refs) (hm : OwnIds m) (hids : ∀ r ∈ ids, r ∈ refs.keys) :
    OwnIds (linkLoaded refs m ids) := by
  induction ids generalizing m with
  | nil => exact hm
  | cons r rs ih =>
    refine ih _ (ownIds_set m _ _ hm ?_) (fun x hx => hids x (List.mem_cons_of_mem _ hx))
    obtain ⟨v, hv⟩ := (GoMap.mem_keys_iff _ _).1 (hids r (List.mem_cons_self _ _))
    simp only [hv, Option.getD_some]
    exact (ownIds_iff refs).1 hrefs _ _ hv

theorem loadProjects_copies (refs : GoMap Reference) (rows : List (List String))
    (m pm : GoMap Project) (h : loadProjects refs m rows = some pm) (hrefs : OwnIds refs)
    (hm : CopiesOwnIds ⟨m, refs⟩) (hrows : ∀ row ∈ rows, ∀ id ∈ row.drop 2, id ∈ refs.keys) :
    CopiesOwnIds ⟨pm, refs⟩ := by
  induction rows generalizing m with
  | nil =>
    simp only [loadProjects, Option.some.injEq] at h
    subst h
    exact hm
  | cons row rows ih =>
    match row, h, hrows with
    | id :: title :: refIds, h, hrows =>
      simp only [loadProjects] at h
      refine ih _ h ?_ (fun r hr => hrows r (List.mem_cons_of_mem _ hr))
      refine copies_projects_set ⟨m, refs⟩ _ _ hm ?_
      exact linkLoaded_ownIds refs refIds GoMap.empty hrefs ownIds_empty
        (fun r hr => hrows _ (List.mem_cons_self _ _) r (by simpa using hr))

theorem setReferences_ownIds (referencesData projectsData : List (List String))
    (st : Store) (h : setReferences referencesData projectsData = some st)
    (hlinks : ∀ row ∈ projectsData, ∀ id ∈ row.drop 2,
      ∃ r ∈ referencesData, r.head? = some id) :
    OwnIds st.references ∧ CopiesOwnIds st := by
  unfold setReferences at h
  cases hr : loadReferences GoMap.empty referencesData with
  | none => simp [hr] at h
  | some refs =>
    cases hp : loadProjects refs GoMap.empty projectsData with
    | none => simp [hr, hp] at h
    | some projs =>
      simp only [hr, hp, Option.some.injEq] at h
      subst h
      have hrefs := loadReferences_ownIds _ _ _ hr ownIds_empty
      refine ⟨hrefs, loadProjects_copies refs projectsData _ _ hp hrefs ?_ ?_⟩
      · intro e he
        simp [GoMap.empty] at he
      · intro row hrow id hid
        exact loadReferences_keys _ _ _ hr id (Or.inr (hlinks row hrow id hid))

theorem reachable_ownIds (referencesData projectsData : List (List String))
    (hlinks : ∀ row ∈ projectsData, ∀ id ∈ row.drop 2,
      ∃ r ∈ referencesData, r.head? = some id)
    (s : Session) (hs : Reachable referencesData projectsData s) :
    CtlResolves s ∧ OwnIds s.store.references ∧ CopiesOwnIds s.store ∧ LinksResolve s.store := by
  induction hs with
  | start st h =>
    obtain ⟨h1, h2⟩ := setReferences_ownIds _ _ st h hlinks
    exact ⟨fun r hr => (by cases hr), h1, h2, setReferences_linksResolve _ _ st h hlinks⟩
  | next s s1 input out _ h ih =>
    exact ⟨ctlResolves_step s s1 input out ih.1 h, ownIds_step s s1 input out ih.1 ih.2.1 h,
      copiesOwnIds_step s s1 input out ih.2.1 ih.2.2.1 h,
      linksResolve_step s s1 input out ih.2.2.2 h⟩

/-- C5 as the code has it: in every session reachable from tables whose
project rows name only ids of the references table, for every project the
text built and printed by `exportReferences` is the concatenation, over the
ids linked to the project, each exactly once, of the citation record of that
id with the field values of the record the global map holds for it now, and
so it is for whatever order the project's map is visited in; a project
without links gives the empty text. -/
theorem exportReferences_text (referencesData projectsData : List (List String))
    (hlinks : ∀ row ∈ projectsData, ∀ id ∈ row.drop 2,
      ∃ r ∈ referencesData, r.head? = some id)
    (s : Session) (hs : Reachable referencesData projectsData s) (projectId : String) :
    exportReferences s.store projectId
      = String.join ((s.store.project projectId).refs.keys.map
          (fun k => citationRecord k (s.store.reference k))) ∧
    (s.store.project projectId).refs.keys.Nodup ∧
    (∀ k ∈ (s.store.project projectId).refs.keys,
      s.store.references.get k = some (s.store.reference k)) ∧
    (∀ visit : List (String × Reference), visit.Perm (s.store.project projectId).refs.entries →
      (visit.map Prod.fst).Perm (s.store.project projectId).refs.keys ∧
      exportText s.store visit
        = String.join ((visit.map Prod.fst).map
            (fun k => citationRecord k (s.store.reference k)))) ∧
    ((s.store.project projectId).refs.keys = [] → exportReferences s.store projectId = "") ∧
    (∀ stack, step ⟨s.store, .projectMenu projectId, stack⟩ "4"
      = .running ["Exporting references for project: " ++ (s.store.project projectId).title,
          "", exportReferences s.store projectId, "Press enter to continue"]
          ⟨s.store, .exportReferences projectId, stack⟩) := by
  obtain ⟨-, -, hcopies, hres⟩ := reachable_ownIds _ _ hlinks s hs
  have hown := copies_project s.store projectId hcopies
  have hfold : ∀ visit : List (String × Reference),
      visit.Perm (s.store.project projectId).refs.entries →
      exportText s.store visit
        = String.join ((visit.map Prod.fst).map
            (fun k => citationRecord k (s.store.reference k))) := by
    intro visit hv
    have hmap : (visit.map Prod.fst).map (fun k => citationRecord k (s.store.reference k))
        = visit.map (fun e => citationRecord e.2.id (s.store.reference e.2.id)) := by
      rw [List.map_map]
      exact List.map_congr_left (fun e he => by
        simp only [Function.comp_apply]
        rw [hown e (hv.subset he)])
    rw [hmap]
    exact exportText_fold s.store visit ""
  refine ⟨hfold _ (List.Perm.refl _), (s.store.project projectId).refs.nodup, ?_,
    fun visit hv => ⟨hv.map Prod.fst, hfold visit hv⟩, ?_, ?_⟩
  · intro k hk
    obtain ⟨v, hv⟩ := (GoMap.mem_keys_iff _ _).1 (linksResolve_project s.store projectId hres k hk)
    simp [Store.reference, hv]
  · intro h
    have he : (s.store.project projectId).refs.entries = [] := by
      simpa [GoMap.keys] using h
    simp [exportReferences, exportText, he]
  · intro stack
    simp [step, enter, render]

set_option maxRecDepth 8192

/-- Instance of C5: two references linked to project "P", the title of the
first edited after the load; the export has both records, the edited one
with the title the global map holds now. -/
theorem exportReferences_text_witness :
    ∃ out s,
      main [["r1", "article", "Old", "2000", "1", "u", "p", "A", "B"],
            ["r2", "book", "T2", "2001", "", "", "", "C"]]
          [["P", "Proj", "r1", "r2"]] ["2", "r1", "2", "1", "New", ""] = .running out s ∧
      exportReferences s.store "P"
        = "@book\x7br2,\n\ttitle = \x7bT2\x7d,\n\tauthor = \x7bC\x7d,\n\tyear = \x7b2001\x7d,\n\tmonth = \x7b\x7d,\n\turl = \x7b\x7d,\n\tpublisher = \x7b\x7d,\n\x7d\n@article\x7br1,\n\ttitle = \x7bNew\x7d,\n\tauthor = \x7bA and B\x7d,\n\tyear = \x7b2000\x7d,\n\tmonth = \x7b1\x7d,\n\turl = \x7bu\x7d,\n\tpublisher = \x7bp\x7d,\n\x7d\n" :=
  ⟨_, _, rfl,
    ((exportReferences_text
      [["r1", "article", "Old", "2000", "1", "u", "p", "A", "B"],
        ["r2", "book", "T2", "2001", "", "", "", "C"]]
      [["P", "Proj", "r1", "r2"]] (by decide) _
      (reachable_main _ _ ["2", "r1", "2", "1", "New", ""] _ _ rfl) "P").1).trans (by decide)⟩

/-- C5 as stated fails: load a projects table whose row names the id "ghost"
that the references table lacks.  The project then holds the single key
"ghost" with the zero record, and the exported record carries the id of that
copy (the empty string): in no order is the text the concatenation of the
citation records of the linked ids. -/
theorem exportReferences_unresolved_link :
    ∃ st, Reachable [] [["P", "t", "ghost"]] ⟨st, .menu, []⟩ ∧
      (st.project "P").refs.keys = ["ghost"] ∧
      exportReferences st "P"
        = "@\x7b,\n\ttitle = \x7b\x7d,\n\tauthor = \x7b\x7d,\n\tyear = \x7b\x7d,\n\tmonth = \x7b\x7d,\n\turl = \x7b\x7d,\n\tpublisher = \x7b\x7d,\n\x7d\n" ∧
      ¬ ∃ ids : List String, ids.Perm (st.project "P").refs.keys ∧
        exportReferences st "P"
          = String.join (ids.map (fun k => citationRecord k (st.reference k))) := by
  refine ⟨_, Reachable.start _ rfl, by decide, by decide, ?_⟩
  rintro ⟨ids, hp, he⟩
  have hk : ids = ["ghost"] := List.perm_singleton.1 hp
  subst hk
  revert he
  decide

end RefManager
